import Mathlib

/-!
Verification of the acd-go client library core against its specification.

The Go source is shallowly embedded: Go maps become association lists,
pointers to nodes become natural-number references into an explicit heap,
and every fallible operation returns an Except value.  Each definition
mirrors one function of the source tree (node/find.go, node/tree.go,
node/node.go, node/cache.go, node/upload.go, client/trash.go and the sync
engine), and the theorems at the end settle the frozen claims.
-/

set_option linter.unnecessarySeqFocus false

namespace AcdGo

/-! ### Association-list maps (model of Go maps)

Go maps are modelled as association lists with unique keys; aget / aset /
aerase are lookup, insert-or-replace and delete. -/

def aget {κ β : Type} [DecidableEq κ] : List (κ × β) → κ → Option β
  | [], _ => none
  | (k1, v) :: rest, k => if k1 = k then some v else aget rest k

def aset {κ β : Type} [DecidableEq κ] : List (κ × β) → κ → β → List (κ × β)
  | [], k, v => [(k, v)]
  | (k1, v1) :: rest, k, v => if k1 = k then (k, v) :: rest else (k1, v1) :: aset rest k v

def aerase {κ β : Type} [DecidableEq κ] : List (κ × β) → κ → List (κ × β)
  | [], _ => []
  | (k1, v1) :: rest, k => if k1 = k then aerase rest k else (k1, v1) :: aerase rest k

theorem aget_aset {κ β : Type} [DecidableEq κ] (l : List (κ × β)) (k : κ) (v : β) :
    aget (aset l k v) k = some v := by
  induction l with
  | nil => simp [aset, aget]
  | cons p rest ih =>
    obtain ⟨k1, v1⟩ := p
    by_cases h : k1 = k
    · simp [aset, h, aget]
    · simp [aset, h, aget, ih]

theorem aget_aset_ne {κ β : Type} [DecidableEq κ] (l : List (κ × β)) (k k2 : κ) (v : β)
    (h : k ≠ k2) : aget (aset l k v) k2 = aget l k2 := by
  induction l with
  | nil => simp [aset, aget, h]
  | cons p rest ih =>
    obtain ⟨k1, v1⟩ := p
    by_cases h1 : k1 = k
    · subst h1
      simp [aset, aget, h]
    · simp [aset, h1, aget, ih]

theorem aget_aerase {κ β : Type} [DecidableEq κ] (l : List (κ × β)) (k : κ) :
    aget (aerase l k) k = none := by
  induction l with
  | nil => simp [aerase, aget]
  | cons p rest ih =>
    obtain ⟨k1, v1⟩ := p
    by_cases h : k1 = k
    · simp [aerase, h, ih]
    · simp [aerase, h, aget, ih]

theorem aget_aerase_ne {κ β : Type} [DecidableEq κ] (l : List (κ × β)) (k k2 : κ) (h : k ≠ k2) :
    aget (aerase l k) k2 = aget l k2 := by
  induction l with
  | nil => simp [aerase]
  | cons p rest ih =>
    obtain ⟨k1, v1⟩ := p
    by_cases h1 : k1 = k
    · subst h1
      simp [aerase, aget, h, ih]
    · simp [aerase, h1, aget, ih]

/-! ### ASCII lowercasing (model of strings.ToLower on the characters that occur)

Char.toLower maps the ASCII range A-Z to a-z and leaves everything else
unchanged, exactly as Go's strings.ToLower does on ASCII input. -/

theorem toNat_ofNat_valid {n : Nat} (h : n.isValidChar) : (Char.ofNat n).toNat = n := by
  simp [Char.ofNat, h, Char.ofNatAux, Char.toNat]
  rfl

theorem char_eq_of_toNat_eq {c d : Char} (h : c.toNat = d.toNat) : c = d := by
  apply Char.eq_of_val_eq
  exact UInt32.ext h

theorem toLower_toNat (c : Char) :
    (Char.toLower c).toNat = if 65 ≤ c.toNat ∧ c.toNat ≤ 90 then c.toNat + 32 else c.toNat := by
  unfold Char.toLower
  by_cases h : 65 ≤ c.toNat ∧ c.toNat ≤ 90
  · have hv : (c.toNat + 32).isValidChar := by
      constructor
      omega
    simp [h, toNat_ofNat_valid hv]
  · simp [h]

theorem toLower_slash_iff (c : Char) : Char.toLower c = '/' ↔ c = '/' := by
  constructor
  · intro h
    have h2 : (Char.toLower c).toNat = 47 := by rw [h]; rfl
    rw [toLower_toNat] at h2
    by_cases hc : 65 ≤ c.toNat ∧ c.toNat ≤ 90
    · simp [hc] at h2; omega
    · simp [hc] at h2
      apply char_eq_of_toNat_eq
      rw [h2]; rfl
  · intro h
    rw [h]
    rfl

theorem toLower_idem (c : Char) : Char.toLower (Char.toLower c) = Char.toLower c := by
  apply char_eq_of_toNat_eq
  rw [toLower_toNat, toLower_toNat]
  by_cases h : 65 ≤ c.toNat ∧ c.toNat ≤ 90 <;> simp [h] <;> omega

/-- Model of strings.ToLower, applied characterwise. -/
def lowerStr (s : String) : String := String.mk (s.data.map Char.toLower)

/-! ### Path normalization (find.go FindNode)

FindNode first replaces every run of slashes by a single slash (the
regexp replacement of "/[/]*" by "/"), then trims leading and trailing
slashes (strings.Trim(path, "/")), then lowercases, then splits on "/". -/

/-- Model of the regexp replacement of "/[/]*" by "/": every maximal run of
slashes collapses to one slash.  The flag records whether the previous kept
character was part of a slash run. -/
def collapseSlashes : Bool → List Char → List Char
  | _, [] => []
  | prev, c :: cs =>
    if c = '/' then
      if prev then collapseSlashes true cs else '/' :: collapseSlashes true cs
    else c :: collapseSlashes false cs

/-- Model of strings.Trim(path, "/"): drop leading and trailing slashes. -/
def trimSlashes (l : List Char) : List Char :=
  (((l.dropWhile (fun c => c = '/')).reverse.dropWhile (fun c => c = '/'))).reverse

/-- Model of strings.Split(s, "/").  Splitting the empty string yields one
empty part, as in Go. -/
def splitSlash : List Char → List (List Char)
  | [] => [[]]
  | c :: cs =>
    match splitSlash cs with
    | [] => [[]]
    | s :: ss => if c = '/' then [] :: s :: ss else (c :: s) :: ss

/-- No two adjacent slashes. -/
def NoAdj (l : List Char) : Prop := List.Chain' (fun a b => ¬(a = '/' ∧ b = '/')) l

theorem collapseSlashes_true_head (l : List Char) : (collapseSlashes true l).head? ≠ some '/' := by
  induction l with
  | nil => simp [collapseSlashes]
  | cons c cs ih =>
    by_cases h : c = '/'
    · simpa [collapseSlashes, h] using ih
    · simp [collapseSlashes, h]

theorem noAdj_collapseSlashes (b : Bool) (l : List Char) : NoAdj (collapseSlashes b l) := by
  induction l generalizing b with
  | nil => simp [collapseSlashes, NoAdj]
  | cons c cs ih =>
    by_cases h : c = '/'
    · cases b with
      | true => simpa [collapseSlashes, h] using ih true
      | false =>
        have hred : collapseSlashes false (c :: cs) = '/' :: collapseSlashes true cs := by
          simp [collapseSlashes, h]
        rw [NoAdj, hred, List.chain'_cons']
        refine ⟨?_, ih true⟩
        intro y hy hcon
        exact collapseSlashes_true_head cs (by rw [hy]; exact congrArg some hcon.2)
    · have hred : ∀ b2, collapseSlashes b2 (c :: cs) = c :: collapseSlashes false cs := by
        intro b2; simp [collapseSlashes, h]
      rw [NoAdj, hred, List.chain'_cons']
      exact ⟨fun y hy hcon => absurd hcon.1 h, ih false⟩

theorem collapseSlashes_true_of_head (l : List Char) (h : l.head? ≠ some '/') :
    collapseSlashes true l = collapseSlashes false l := by
  cases l with
  | nil => rfl
  | cons c cs =>
    have hc : ¬ c = '/' := by simpa using h
    simp [collapseSlashes, hc]

theorem NoAdj.tail {c : Char} {l : List Char} (h : NoAdj (c :: l)) : NoAdj l :=
  (List.chain'_cons'.mp h).2

theorem collapseSlashes_eq_self {l : List Char} (h : NoAdj l) : collapseSlashes false l = l := by
  induction l with
  | nil => rfl
  | cons c cs ih =>
    by_cases hc : c = '/'
    · have hhead : cs.head? ≠ some '/' := by
        intro hcs
        cases cs with
        | nil => simp at hcs
        | cons d ds =>
          simp at hcs
          exact (List.chain'_cons.mp h).1 ⟨hc, hcs⟩
      have hred : collapseSlashes false (c :: cs) = '/' :: collapseSlashes true cs := by
        simp [collapseSlashes, hc]
      rw [hred, collapseSlashes_true_of_head cs hhead, ih h.tail, hc]
    · have hred : collapseSlashes false (c :: cs) = c :: collapseSlashes false cs := by
        simp [collapseSlashes, hc]
      rw [hred, ih h.tail]

theorem noAdj_dropWhile {l : List Char} (h : NoAdj l) :
    NoAdj (l.dropWhile (fun c => c = '/')) := by
  induction l with
  | nil => simpa using h
  | cons c cs ih =>
    by_cases hc : c = '/'
    · rw [List.dropWhile_cons_of_pos (by simpa using hc)]
      exact ih h.tail
    · rwa [List.dropWhile_cons_of_neg (by simpa using hc)]

theorem noAdj_reverse {l : List Char} (h : NoAdj l) : NoAdj l.reverse := by
  rw [NoAdj, List.chain'_reverse]
  exact h.imp (fun a b hab => by rw [and_comm] at hab; exact hab)

theorem noAdj_trimSlashes {l : List Char} (h : NoAdj l) : NoAdj (trimSlashes l) := by
  unfold trimSlashes
  exact noAdj_reverse (noAdj_dropWhile (noAdj_reverse (noAdj_dropWhile h)))

theorem dropWhile_eq_self_of_head {p : Char → Bool} {l : List Char}
    (h : ∀ c, l.head? = some c → p c = false) : l.dropWhile p = l := by
  cases l with
  | nil => rfl
  | cons c cs =>
    rw [List.dropWhile_cons_of_neg]
    simp [h c rfl]

theorem head_dropWhile_false (p : Char → Bool) (l : List Char) :
    ∀ c, (l.dropWhile p).head? = some c → p c = false := by
  intro c hc
  have := List.head?_dropWhile_not p l
  rw [hc] at this
  exact this

theorem getLast_dropWhile_false (p : Char → Bool) (l : List Char) :
    ∀ c, (l.dropWhile p).getLast? = some c → l.getLast? = some c := by
  intro c hc
  obtain ⟨t, ht⟩ := List.dropWhile_suffix p (l := l)
  rw [← ht, List.getLast?_append]
  rw [hc]
  simp

theorem trimSlashes_head (l : List Char) :
    ∀ c, (trimSlashes l).head? = some c → (c = '/') = False := by
  intro c hc
  unfold trimSlashes at hc
  rw [List.head?_reverse] at hc
  have h1 := getLast_dropWhile_false (fun c => c = '/') _ c hc
  rw [List.getLast?_reverse] at h1
  have h2 := head_dropWhile_false (fun c => c = '/') l c h1
  simpa using h2

theorem trimSlashes_getLast (l : List Char) :
    ∀ c, (trimSlashes l).getLast? = some c → (c = '/') = False := by
  intro c hc
  unfold trimSlashes at hc
  rw [List.getLast?_reverse] at hc
  have h1 := head_dropWhile_false (fun c => c = '/') _ c hc
  simpa using h1

theorem trimSlashes_idem (l : List Char) : trimSlashes (trimSlashes l) = trimSlashes l := by
  have h1 : (trimSlashes l).dropWhile (fun c => c = '/') = trimSlashes l := by
    apply dropWhile_eq_self_of_head
    intro c hc
    simpa using trimSlashes_head l c hc
  have h2 : (trimSlashes l).reverse.dropWhile (fun c => c = '/') = (trimSlashes l).reverse := by
    apply dropWhile_eq_self_of_head
    intro c hc
    rw [List.head?_reverse] at hc
    simpa using trimSlashes_getLast l c hc
  show ((((trimSlashes l).dropWhile _).reverse.dropWhile _)).reverse = trimSlashes l
  rw [h1, h2, List.reverse_reverse]

theorem dropWhile_map_toLower (l : List Char) :
    (l.map Char.toLower).dropWhile (fun c => c = '/')
      = (l.dropWhile (fun c => c = '/')).map Char.toLower := by
  have hp : ((fun c => decide (c = '/')) ∘ Char.toLower) = (fun c : Char => decide (c = '/')) := by
    funext c
    simp [Function.comp, toLower_slash_iff]
  rw [List.dropWhile_map, hp]

theorem trimSlashes_map_toLower (l : List Char) :
    trimSlashes (l.map Char.toLower) = (trimSlashes l).map Char.toLower := by
  unfold trimSlashes
  rw [dropWhile_map_toLower, ← List.map_reverse, dropWhile_map_toLower, List.map_reverse]

theorem collapseSlashes_map_toLower (b : Bool) (l : List Char) :
    collapseSlashes b (l.map Char.toLower) = (collapseSlashes b l).map Char.toLower := by
  induction l generalizing b with
  | nil => rfl
  | cons c cs ih =>
    by_cases hc : c = '/'
    · have hlc : Char.toLower c = '/' := (toLower_slash_iff c).mpr hc
      cases b with
      | true => simp [collapseSlashes, hc, hlc, ih]
      | false => simp [collapseSlashes, hc, hlc, ih]
    · have hlc : ¬ Char.toLower c = '/' := fun h => hc ((toLower_slash_iff c).mp h)
      simp [collapseSlashes, hc, hlc, ih]

theorem map_toLower_idem (l : List Char) :
    (l.map Char.toLower).map Char.toLower = l.map Char.toLower := by
  rw [List.map_map]
  congr 1
  funext c
  exact toLower_idem c

theorem normText_stable (l : List Char) :
    trimSlashes (collapseSlashes false ((trimSlashes (collapseSlashes false l)).map Char.toLower))
      = (trimSlashes (collapseSlashes false l)).map Char.toLower := by
  have hnoadj : NoAdj (trimSlashes (collapseSlashes false l)) :=
    noAdj_trimSlashes (noAdj_collapseSlashes false l)
  rw [collapseSlashes_map_toLower, collapseSlashes_eq_self hnoadj, trimSlashes_map_toLower,
    trimSlashes_idem]

/-! ### The node tree (node/tree.go, node/node.go)

Go node pointers are modelled as natural-number references into an explicit
heap; the Tree struct becomes TreeH.  A node's children map (Nodes) is an
Option so that a Go nil map is distinguishable from an empty map: addChild
initializes a nil map before writing, removeChild skips a nil map, and a
lookup in a nil map misses. -/

abbrev Ref := Nat

/-- Model of node.Node: the fields the claims depend on.  children is the
Nodes map, keyed by lowercased child name, holding references (pointers). -/
structure SNode where
  id : String
  name : String
  kind : String
  status : String
  isRoot : Bool
  parents : List String
  children : Option (List (String × Ref))
deriving DecidableEq, Repr, Inhabited

/-- Model of node.Tree: the heap of node records, a fresh-reference counter,
the root pointer (nt.Node), the id index (nt.nodeIdMap) and the checkpoint. -/
structure TreeH where
  heap : List (Ref × SNode)
  next : Ref
  rootRef : Ref
  idMap : List (String × Ref)
  checkpoint : String
deriving DecidableEq, Repr, Inhabited

/-- Dereference a node pointer.  In the Go program every pointer that is
dereferenced is valid; the default is never reached under the well-formedness
hypotheses of the theorems. -/
def nodeAt (t : TreeH) (r : Ref) : SNode := (aget t.heap r).getD default

/-- IsAvailable (node/node.go). -/
def SNode.isAvailable (n : SNode) : Bool := n.status = "AVAILABLE"

/-- IsDir (node/node.go). -/
def SNode.isDir (n : SNode) : Bool := n.kind = "FOLDER"

/-- Model of Node.addChild: initialize the Nodes map if nil, then store the
child pointer under the lowercased child name. -/
def addChild (t : TreeH) (pr : Ref) (child : SNode) (cr : Ref) : TreeH :=
  match aget t.heap pr with
  | none => t
  | some p =>
    let m := p.children.getD []
    { t with heap := aset t.heap pr { p with children := some (aset m (lowerStr child.name) cr) } }

/-- Model of Node.removeChild: if the Nodes map is not nil, delete the entry
keyed by the lowercased child name. -/
def removeChild (t : TreeH) (pr : Ref) (child : SNode) : TreeH :=
  match aget t.heap pr with
  | none => t
  | some p =>
    match p.children with
    | none => t
    | some m =>
      { t with heap := aset t.heap pr { p with children := some (aerase m (lowerStr child.name)) } }

/-- Child-map lookup through the heap: the entry stored for key k in the
children of the node referenced by r. -/
def childEntry (t : TreeH) (r : Ref) (k : String) : Option Ref :=
  match aget t.heap r with
  | none => none
  | some n =>
    match n.children with
    | none => none
    | some m => aget m k

/-- Allocate a freshly decoded node record on the heap. -/
def allocNode (t : TreeH) (n : SNode) : TreeH × Ref :=
  ({ t with heap := aset t.heap t.next n, next := t.next + 1 }, t.next)

/-! ### Domain errors (constants package) -/

inductive Err where
  | nodeNotFound
  | creatingHTTPRequest
  | doingHTTPRequest
  | httpError
  | jsonDecodingResponseBody
  | fileExistsAndIsNotFolder
  | cannotCreateRootNode
  | cannotCreateANodeUnderAFile
  | noContentsToUpload
  | mustFetchFresh
  | nilMapWrite
  | purgeNodeErrors (maps : List (List (String × Nat)))
deriving DecidableEq, Repr

instance {ε α : Type} [DecidableEq ε] [DecidableEq α] : DecidableEq (Except ε α) := fun x y =>
  match x, y with
  | .ok a, .ok b =>
    if h : a = b then isTrue (by rw [h]) else isFalse (by simp [h])
  | .error a, .error b =>
    if h : a = b then isTrue (by rw [h]) else isFalse (by simp [h])
  | .ok _, .error _ => isFalse (by simp)
  | .error _, .ok _ => isFalse (by simp)

/-! ### Path resolution (node/find.go FindNode) -/

/-- Descend through the children maps, one lowercased segment at a time;
any miss is ErrNodeNotFound. -/
def resolveSegs (t : TreeH) : Ref → List (List Char) → Except Err Ref
  | r, [] => .ok r
  | r, s :: ss =>
    match childEntry t r (String.mk s) with
    | none => .error .nodeNotFound
    | some r2 => resolveSegs t r2 ss

/-- Model of Tree.FindNode: collapse slash runs, trim slashes, return the
root on an empty remainder, otherwise lowercase, split on slashes and
descend. -/
def FindNode (t : TreeH) (path : String) : Except Err Ref :=
  let trimmed := trimSlashes (collapseSlashes false path.data)
  if trimmed = [] then .ok t.rootRef
  else resolveSegs t t.rootRef (splitSlash (trimmed.map Char.toLower))

/-- The normalization the spec describes: repeated slashes collapsed to one,
leading and trailing slashes removed, all characters lowercased. -/
def normalizePath (path : String) : String :=
  String.mk ((trimSlashes (collapseSlashes false path.data)).map Char.toLower)

/-! ### Tree mutation (node/tree.go) -/

/-- The loop of removeNodeFromTree / updateNodes that detaches a node from
each parent found in the id index. -/
def removeFromParents (t : TreeH) (child : SNode) : List String → TreeH
  | [] => t
  | pid :: rest =>
    match aget t.idMap pid with
    | none => removeFromParents t child rest
    | some pr => removeFromParents (removeChild t pr child) child rest

/-- Model of Tree.removeNodeFromTree: detach the node from every parent in
the index, then delete its id from the index. -/
def removeNodeFromTree (t : TreeH) (n : SNode) : TreeH :=
  let t1 := removeFromParents t n n.parents
  { t1 with idMap := aerase t1.idMap n.id }

/-- The HTTP interaction of Tree.RemoveNode, as seen by the tree logic. -/
inductive HttpOutcome where
  | buildFail
  | doFail
  | checkFail
  | success
deriving DecidableEq, Repr

/-- Model of Tree.RemoveNode: build the trash request, execute it, classify
the response; only on success mutate the tree. -/
def RemoveNode (t : TreeH) (n : SNode) (outcome : HttpOutcome) : TreeH × Option Err :=
  match outcome with
  | .buildFail => (t, some .creatingHTTPRequest)
  | .doFail => (t, some .doingHTTPRequest)
  | .checkFail => (t, some .httpError)
  | .success => (removeNodeFromTree t n, none)

/-! ### The sync fold (unnamed sync file, updateNodes and Sync) -/

/-- The placeholder record created for a parent id that is absent from the
index: a node value with only the id set, every other field at its zero
value (in particular a nil children map). -/
def placeholderNode (pid : String) : SNode :=
  { id := pid, name := "", kind := "", status := "", isRoot := false, parents := [],
    children := none }

/-- Allocate a placeholder for the missing parent pid and insert it into the
id index. -/
def phStep (t : TreeH) (pid : String) : TreeH :=
  { t with
    heap := aset t.heap t.next (placeholderNode pid),
    next := t.next + 1,
    idMap := aset t.idMap pid t.next }

/-- The loop of updateNodes that links an updated node under every id listed
in its parents, creating a placeholder index entry for absent parents. -/
def addToParents (t : TreeH) (c : SNode) (cr : Ref) : List String → TreeH
  | [] => t
  | pid :: rest =>
    match aget t.idMap pid with
    | some pr => addToParents (addChild t pr c cr) c cr rest
    | none => addToParents (addChild (phStep t pid) t.next c cr) c cr rest

/-- Model of one iteration of Tree.updateNodes over a delta node crNode. -/
def updateNode (t : TreeH) (c : SNode) : TreeH :=
  if c.isRoot then
    let p := allocNode t c
    { p.1 with rootRef := p.2, idMap := aset p.1.idMap c.id p.2 }
  else if ¬ c.isAvailable then
    removeNodeFromTree t c
  else
    match aget t.idMap c.id with
    | none =>
      let p := allocNode t c
      let t2 := { p.1 with idMap := aset p.1.idMap c.id p.2 }
      addToParents t2 c p.2 c.parents
    | some oldRef =>
      let old := (aget t.heap oldRef).getD default
      let c2 := { c with children := old.children }
      let p := allocNode t c2
      let t2 := { p.1 with idMap := aset p.1.idMap c.id p.2 }
      let t3 := removeFromParents t2 old old.parents
      addToParents t3 c2 p.2 c.parents

/-- Model of Tree.updateNodes: fold the delta nodes in array order. -/
def updateNodes (t : TreeH) : List SNode → TreeH
  | [] => t
  | c :: cs => updateNodes (updateNode t c) cs

/-- One parsed line of the newline-delimited changes response
(apiChangesResponse).  The reset field is decoded by Sync but never
inspected afterwards. -/
structure ChangeLine where
  checkpoint : String
  nodes : List SNode
  statusCode : Nat
  reset : Bool
  endOfStream : Bool
deriving DecidableEq, Repr

/-- Model of the line-processing loop of Tree.Sync: stop at an end line,
otherwise fold the nodes of the line and then store its checkpoint.  Given
already parsed lines the loop has no error exit; in particular it never
returns ErrMustFetchFresh. -/
def syncLines (t : TreeH) : List ChangeLine → TreeH
  | [] => t
  | line :: rest =>
    if line.endOfStream then t
    else syncLines { updateNodes t line.nodes with checkpoint := line.checkpoint } rest

/-! ### Fresh fetch (node/tree.go fetchFresh)

fetchFresh decodes the full node list, indexes the AVAILABLE nodes by id,
then relinks children by writing directly into each live parent's Nodes map
(pn.Nodes[strings.ToLower(node.Name)] = node) without the nil-map
initialization that addChild performs; a write into a nil map is a Go
runtime panic, modelled as the error nilMapWrite. -/

/-- Allocate the decoded node records on the heap at consecutive fresh
references. -/
def appendNodes (heap : List (Ref × SNode)) (start : Ref) : List SNode → List (Ref × SNode)
  | [] => heap
  | n :: rest => appendNodes (aset heap start n) (start + 1) rest

/-- Build the fresh id index over the AVAILABLE decoded nodes, in decode
order. -/
def buildAvailIndex : List SNode → Ref → List (String × Ref) → List (String × Ref)
  | [], _, m => m
  | n :: rest, r, m => buildAvailIndex rest (r + 1) (if n.isAvailable then aset m n.id r else m)

/-- The inner loop of fetchFresh's relink: place the node into the Nodes map
of each parent found in the fresh index, by direct map assignment. -/
def relinkParents (idMap : List (String × Ref)) (node : SNode) (r : Ref) :
    List (Ref × SNode) → List String → Except Err (List (Ref × SNode))
  | heap, [] => .ok heap
  | heap, pid :: rest =>
    match aget idMap pid with
    | none => relinkParents idMap node r heap rest
    | some pr =>
      let pn := (aget heap pr).getD default
      match pn.children with
      | none => .error .nilMapWrite
      | some m =>
        relinkParents idMap node r
          (aset heap pr { pn with children := some (aset m (lowerStr node.name) r) }) rest

/-- The outer loop of fetchFresh's relink over the fresh index: detect the
root (empty name, folder, no parents) and relink each node under its live
parents. -/
def relinkAllNodes (idMap : List (String × Ref)) :
    List (String × Ref) → List (Ref × SNode) → Option Ref →
    Except Err (List (Ref × SNode) × Option Ref)
  | [], heap, rt => .ok (heap, rt)
  | (_, r) :: rest, heap, rt =>
    let node := (aget heap r).getD default
    let rt2 := if node.name = "" ∧ node.isDir ∧ node.parents = [] then some r else rt
    match relinkParents idMap node r heap node.parents with
    | .error e => .error e
    | .ok heap2 => relinkAllNodes idMap rest heap2 rt2

/-- Model of Tree.fetchFresh, from the point where the server's node list
has been decoded: index the available nodes, relink children, reset the
checkpoint. -/
def fetchFresh (t : TreeH) (nodes : List SNode) : Except Err TreeH :=
  let heap0 := appendNodes t.heap t.next nodes
  let idMap0 := buildAvailIndex nodes t.next []
  match relinkAllNodes idMap0 idMap0 heap0 none with
  | .error e => .error e
  | .ok (heap2, rt) =>
    .ok { heap := heap2, next := t.next + nodes.length, rootRef := rt.getD t.rootRef,
          idMap := idMap0, checkpoint := "" }

/-! ### The upload pipeline (node/upload.go) -/

/-- The semantic content of the metadata part of the multipart body: the
JSON-encoded newNode record. -/
structure NewNodeMeta where
  name : String
  kind : String
  parents : List String
deriving DecidableEq, Repr

/-- The multipart body assembled by the producer. -/
structure MultipartBody where
  metadataPart : Option NewNodeMeta
  contentName : String
  content : List UInt8
deriving DecidableEq, Repr

/-- Model of Node.bodyWriter, the producer: emit the metadata part when a
metadata JSON was provided, create the content part, copy the reader into
it; if the copy transferred zero bytes report ErrNoContentsToUpload and
abort.  The pure pipe cannot fail, so the write errors of the multipart
writer do not arise. -/
def bodyWriter (metadata : Option NewNodeMeta) (name : String) (r : List UInt8) :
    Except Err MultipartBody :=
  if r.length = 0 then .error .noContentsToUpload
  else .ok { metadataPart := metadata, contentName := name, content := r }

/-- Model of Tree.upload, the producer/consumer rendezvous: a producer error
is surfaced as the pipeline result and the consumer's response is never
consumed; otherwise the consumer's decoded node is returned. -/
def uploadPipeline (metadata : Option NewNodeMeta) (name : String) (r : List UInt8)
    (server : MultipartBody → Except Err SNode) : Except Err SNode :=
  match bodyWriter metadata name r with
  | .error e => .error e
  | .ok body => server body

/-- Model of Tree.Upload: run the pipeline with the newNode metadata; on
success insert the returned node into the id index and link it under the
parent. -/
def Upload (t : TreeH) (parentRef : Ref) (name : String) (r : List UInt8)
    (server : MultipartBody → Except Err SNode) : TreeH × Except Err Ref :=
  let parent := nodeAt t parentRef
  let meta : NewNodeMeta := { name := name, kind := "FILE", parents := [parent.id] }
  match uploadPipeline (some meta) name r server with
  | .error e => (t, .error e)
  | .ok node =>
    let p := allocNode t node
    let t2 := { p.1 with idMap := aset p.1.idMap node.id p.2 }
    (addChild t2 parentRef node p.2, .ok p.2)

/-! ### CreateFolder and MkDirAll (node/upload.go, node/tree.go) -/

/-- Model of Tree.CreateFolder: issue the create request through the server
oracle; on success decode the node, insert it into the id index and add it
as a child of the parent. -/
def CreateFolder (t : TreeH) (pr : Ref) (name : String)
    (server : String → String → Except Err SNode) : TreeH × Except Err Ref :=
  let parent := nodeAt t pr
  match server parent.id name with
  | .error e => (t, .error e)
  | .ok node =>
    let p := allocNode t node
    let t2 := { p.1 with idMap := aset p.1.idMap node.id p.2 }
    (addChild t2 pr node p.2, .ok p.2)

/-- Model of strings.Join(parts, "/"). -/
def joinSlash : List (List Char) → List Char
  | [] => []
  | [s] => s
  | s :: rest => s ++ '/' :: joinSlash rest

/-- The prefix-walking loop of Tree.MkDirAll: resolve each prefix, create a
folder under the deepest existing ancestor when the prefix is missing, fail
with ErrCannotCreateANodeUnderAFile when an existing prefix is not a
folder.  The first component collects the create-folder requests issued as
(parent id, folder name) pairs. -/
def mkDirLoop (server : String → String → Except Err SNode) :
    TreeH → Ref → List (List Char) → List (List Char) → List (String × String) →
    List (String × String) × TreeH × Except Err Ref
  | t, folderRef, _, [], reqs => (reqs, t, .ok folderRef)
  | t, folderRef, done, part :: rest, reqs =>
    let pfx := done ++ [part]
    match FindNode t (String.mk (joinSlash pfx)) with
    | .ok r =>
      if (nodeAt t r).isDir then mkDirLoop server t r pfx rest reqs
      else (reqs, t, .error .cannotCreateANodeUnderAFile)
    | .error e =>
      match e with
      | .nodeNotFound =>
        let reqs2 := reqs ++ [((nodeAt t folderRef).id, String.mk part)]
        match CreateFolder t folderRef (String.mk part) server with
        | (t2, .error e2) => (reqs2, t2, .error e2)
        | (t2, .ok r) =>
          if (nodeAt t2 r).isDir then mkDirLoop server t2 r pfx rest reqs2
          else (reqs2, t2, .error .cannotCreateANodeUnderAFile)
      | _ => (reqs, t, .error e)

/-- Model of Tree.MkDirAll.  A resolving path returns the node when it is a
folder and ErrFileExistsAndIsNotFolder otherwise; a non-resolving path is
trimmed, split and walked prefix by prefix.  strings.Split never returns an
empty slice, so the ErrCannotCreateRootNode branch guarded by
len(parts) == 0 is unreachable, which the model mirrors. -/
def MkDirAll (t : TreeH) (server : String → String → Except Err SNode) (path : String) :
    List (String × String) × TreeH × Except Err Ref :=
  match FindNode t path with
  | .ok r =>
    if (nodeAt t r).isDir then ([], t, .ok r)
    else ([], t, .error .fileExistsAndIsNotFolder)
  | .error _ =>
    let parts := splitSlash (trimSlashes path.data)
    if parts = [] then ([], t, .error .cannotCreateRootNode)
    else mkDirLoop server t t.rootRef [] parts []

/-! ### Trash purge (client/trash.go) -/

/-- Model of slicesChunk: consecutive sub-slices of at most n elements, in
order.  slicesChunk panics in Go when n is zero; PurgeNodes always calls it
with n = 50, and the model returns no chunks in that unreached case. -/
def slicesChunk {α : Type} : List α → Nat → List (List α)
  | [], _ => []
  | x :: xs, n =>
    if n = 0 then []
    else (x :: xs).take n :: slicesChunk ((x :: xs).drop n) n
termination_by l _ => l.length
decreasing_by simp; omega

/-- Outcome of one bulk-purge batch request. -/
inductive PurgeOutcome where
  | doFail
  | checkFail
  | decodeFail
  | ok (errorMap : List (String × Nat))
deriving DecidableEq, Repr

/-- The batch loop of PurgeNodes: issue one request per chunk, abort on a
transport or decode failure, collect the non-empty errorMaps.  The first
component lists the node-id batches sent. -/
def purgeLoop (server : List String → PurgeOutcome) :
    List (List String) → List (List String) → List (List (String × Nat)) →
    List (List String) × Except Err (List (List (String × Nat)))
  | [], issued, maps => (issued, .ok maps)
  | chunk :: rest, issued, maps =>
    match server chunk with
    | .doFail => (issued ++ [chunk], .error .doingHTTPRequest)
    | .checkFail => (issued ++ [chunk], .error .httpError)
    | .decodeFail => (issued ++ [chunk], .error .jsonDecodingResponseBody)
    | .ok m => purgeLoop server rest (issued ++ [chunk]) (if m.length > 0 then maps ++ [m] else maps)

/-- Model of Client.PurgeNodes: chunk the id list into batches of at most
50, issue one request per batch, and surface the aggregated non-empty
errorMaps as a single error when any batch reported one. -/
def PurgeNodes (ids : List String) (server : List String → PurgeOutcome) :
    List (List String) × Except Err Unit :=
  match purgeLoop server (slicesChunk ids 50) [] [] with
  | (issued, .error e) => (issued, .error e)
  | (issued, .ok maps) =>
    (issued, if maps.length > 0 then .error (.purgeNodeErrors maps) else .ok ())

/-! ### Node properties (node/node.go nodeProperty) -/

def NodePropertyKeysMaxCount : Nat := 10

def NodePropertyKeyMaxSize : Nat := 50

def NodePropertyValueMaxSize : Nat := 500

inductive PropErr where
  | invalidKey
  | invalidValue
  | maxKeys
deriving DecidableEq, Repr

/-- Go len() of a string is its UTF-8 byte length. -/
def goLen (s : String) : Nat := s.utf8ByteSize

/-- Model of the regexp check against NodePropertyKeyCheckRegex, the
anchored pattern admitting only ASCII letters, digits and underscores. -/
def propKeyCheck (key : String) : Bool :=
  key.data.all (fun c => c.isAlphanum || c = '_')

/-- Model of nodeProperty.Set: reject an invalid or oversize key, then an
11th distinct key, then an oversize value; otherwise store the pair.  The
property map is an association list with one entry per distinct key. -/
def nodePropertySet (props : List (String × String)) (key value : String) :
    Except PropErr (List (String × String)) :=
  if ¬ propKeyCheck key ∨ goLen key > NodePropertyKeyMaxSize then .error .invalidKey
  else if ¬ (aget props key).isSome ∧ props.length = NodePropertyKeysMaxCount then
    .error .maxKeys
  else if goLen value > NodePropertyValueMaxSize then .error .invalidValue
  else .ok (aset props key value)

/-! ### The cache store (node/cache.go)

saveCache gob-encodes the Tree; only the exported fields are encoded: the
embedded root node (with its nested Nodes maps), LastUpdated and
Checkpoint.  The unexported nodeIdMap is not encoded.  loadCache decodes
the file and then rebuilds the index with buildNodeIdMap, a walk from the
root.  The value tree GNode is the gob image of the root subtree; gob
round-trips the encoded value unchanged. -/

mutual

/-- The gob image of a node: its scalar fields and its children map as an
ordered association of lowercased name keys to child images. -/
inductive GNode where
  | mk (id name kind status : String) (isRoot : Bool) (parents : List String)
      (children : GForest)

/-- The gob image of a Nodes map. -/
inductive GForest where
  | nil
  | cons (key : String) (node : GNode) (rest : GForest)

end

def GNode.id : GNode → String
  | .mk i _ _ _ _ _ _ => i

def GNode.name : GNode → String
  | .mk _ n _ _ _ _ _ => n

def GNode.kind : GNode → String
  | .mk _ _ k _ _ _ _ => k

def GNode.status : GNode → String
  | .mk _ _ _ s _ _ _ => s

def GNode.parents : GNode → List String
  | .mk _ _ _ _ _ p _ => p

def GNode.children : GNode → GForest
  | .mk _ _ _ _ _ _ c => c

mutual

/-- All nodes reachable from a node, the node first, children in map
order. -/
def gwalk : GNode → List GNode
  | .mk i n k s r p cs => .mk i n k s r p cs :: gwalkF cs

def gwalkF : GForest → List GNode
  | .nil => []
  | .cons _ c rest => gwalk c ++ gwalkF rest

end

mutual

/-- Model of Tree.buildNodeIdMap: walk the tree from the root and map every
visited node's id to the node. -/
def buildIdx : List (String × GNode) → GNode → List (String × GNode)
  | acc, .mk i n k s r p cs => buildIdxF (aset acc i (.mk i n k s r p cs)) cs

def buildIdxF : List (String × GNode) → GForest → List (String × GNode)
  | acc, .nil => acc
  | acc, .cons _ c rest => buildIdxF (buildIdx acc c) rest

end

/-- The value view of the tree for the cache store: the root subtree, the
id index and the checkpoint. -/
structure TreeV where
  root : GNode
  index : List (String × GNode)
  checkpoint : String

/-- Model of saveCache: the data that reaches the cache file is the gob
encoding of the exported fields only; the unexported nodeIdMap is
dropped. -/
def saveCacheData (t : TreeV) : GNode × String := (t.root, t.checkpoint)

/-- Model of loadCache: decode the cache data and rebuild the index with
buildNodeIdMap from the root. -/
def loadCacheData (d : GNode × String) : TreeV :=
  { root := d.1, checkpoint := d.2, index := buildIdx [] d.1 }

/-- Save followed by load. -/
def cacheRoundTrip (t : TreeV) : TreeV := loadCacheData (saveCacheData t)

/-- Model of Tree.FindById over a value index. -/
def FindById (idx : List (String × GNode)) (id : String) : Except Err GNode :=
  match aget idx id with
  | none => .error .nodeNotFound
  | some n => .ok n

deriving instance DecidableEq for GNode
deriving instance DecidableEq for GForest

/-! ### Helper lemmas about removeChild and removeFromParents -/

theorem removeChild_idMap (t : TreeH) (pr : Ref) (child : SNode) :
    (removeChild t pr child).idMap = t.idMap := by
  unfold removeChild
  split
  · rfl
  · split
    · rfl
    · rfl

theorem removeChild_next (t : TreeH) (pr : Ref) (child : SNode) :
    (removeChild t pr child).next = t.next := by
  unfold removeChild
  split
  · rfl
  · split
    · rfl
    · rfl

theorem aget_aerase_none {κ β : Type} [DecidableEq κ] (l : List (κ × β)) (k k2 : κ)
    (h : aget l k = none) : aget (aerase l k2) k = none := by
  by_cases hk : k2 = k
  · subst hk
    exact aget_aerase l k2
  · rw [aget_aerase_ne l k2 k hk]
    exact h

theorem childEntry_removeChild_self (t : TreeH) (pr : Ref) (child : SNode) :
    childEntry (removeChild t pr child) pr (lowerStr child.name) = none := by
  cases hp : aget t.heap pr with
  | none => simp [removeChild, childEntry, hp]
  | some p =>
    cases hc : p.children with
    | none => simp [removeChild, childEntry, hp, hc]
    | some m => simp [removeChild, childEntry, hp, hc, aget_aset, aget_aerase]

theorem childEntry_removeChild_none (t : TreeH) (pr : Ref) (child : SNode) (rr : Ref) (k : String)
    (h : childEntry t rr k = none) : childEntry (removeChild t pr child) rr k = none := by
  cases hp : aget t.heap pr with
  | none => simpa [removeChild, hp] using h
  | some p =>
    cases hc : p.children with
    | none => simpa [removeChild, hp, hc] using h
    | some m =>
      by_cases hr : pr = rr
      · subst hr
        unfold childEntry at h
        simp only [hp] at h
        simp only [hc] at h
        simp [removeChild, childEntry, hp, hc, aget_aset]
        exact aget_aerase_none m k (lowerStr child.name) h
      · unfold childEntry at h ⊢
        simp only [removeChild, hp, hc]
        rw [aget_aset_ne _ _ _ _ hr]
        exact h

theorem removeFromParents_idMap (t : TreeH) (child : SNode) (ps : List String) :
    (removeFromParents t child ps).idMap = t.idMap := by
  induction ps generalizing t with
  | nil => rfl
  | cons pid rest ih =>
    unfold removeFromParents
    cases h : aget t.idMap pid with
    | none => exact ih t
    | some pr => rw [ih (removeChild t pr child), removeChild_idMap]

theorem removeFromParents_next (t : TreeH) (child : SNode) (ps : List String) :
    (removeFromParents t child ps).next = t.next := by
  induction ps generalizing t with
  | nil => rfl
  | cons pid rest ih =>
    unfold removeFromParents
    cases h : aget t.idMap pid with
    | none => exact ih t
    | some pr => rw [ih (removeChild t pr child), removeChild_next]

theorem childEntry_removeFromParents_none (t : TreeH) (child : SNode) (ps : List String)
    (rr : Ref) (k : String) (h : childEntry t rr k = none) :
    childEntry (removeFromParents t child ps) rr k = none := by
  induction ps generalizing t with
  | nil => exact h
  | cons pid rest ih =>
    unfold removeFromParents
    cases hp : aget t.idMap pid with
    | none => exact ih t h
    | some pr => exact ih (removeChild t pr child) (childEntry_removeChild_none t pr child rr k h)

theorem removeFromParents_detach (t : TreeH) (child : SNode) (ps : List String) :
    ∀ pid ∈ ps, ∀ pr, aget t.idMap pid = some pr →
      childEntry (removeFromParents t child ps) pr (lowerStr child.name) = none := by
  induction ps generalizing t with
  | nil => intro pid hpid; simp at hpid
  | cons pid1 rest ih =>
    intro pid hpid pr hpr
    rcases List.mem_cons.mp hpid with heq | hmem
    · subst heq
      unfold removeFromParents
      rw [hpr]
      exact childEntry_removeFromParents_none (removeChild t pr child) child rest pr _
        (childEntry_removeChild_self t pr child)
    · unfold removeFromParents
      cases hp1 : aget t.idMap pid1 with
      | none => exact ih t pid hmem pr hpr
      | some pr1 =>
        refine ih (removeChild t pr1 child) pid hmem pr ?_
        rw [removeChild_idMap]
        exact hpr

/-! ### Witness fixtures: a small concrete tree -/

def wRoot : SNode :=
  { id := "root", name := "", kind := "FOLDER", status := "AVAILABLE", isRoot := true,
    parents := [], children := some [("f.txt", 1)] }

def wFile : SNode :=
  { id := "file1", name := "F.txt", kind := "FILE", status := "AVAILABLE", isRoot := false,
    parents := ["root"], children := none }

def wTree : TreeH :=
  { heap := [(0, wRoot), (1, wFile)], next := 2, rootRef := 0,
    idMap := [("root", 0), ("file1", 1)], checkpoint := "X" }

/-! ### Claim C1 -/

/-- C1: the claim states that a change-stream line with reset:true makes
Sync surface MustFetchFresh without mutating the tree or advancing the
checkpoint.  The source never inspects the decoded Reset field: the loop
folds a reset line like any other line.  At the concrete reset line below
the fold returns normally (the loop has no error exit for reset) and
advances the stored checkpoint from X to Y, contradicting the claim. -/
theorem syncLines_reset_line_folds_normally :
    syncLines wTree
        [{ checkpoint := "Y", nodes := [], statusCode := 0, reset := true,
           endOfStream := false }]
      = { wTree with checkpoint := "Y" }
    ∧ wTree.checkpoint ≠ "Y" := by
  constructor
  · rfl
  · decide

/-! ### Claim C9 -/

def ffRoot : SNode :=
  { id := "r", name := "", kind := "FOLDER", status := "AVAILABLE", isRoot := true,
    parents := [], children := none }

def ffChild : SNode :=
  { id := "c", name := "x", kind := "FILE", status := "AVAILABLE", isRoot := false,
    parents := ["r"], children := none }

def ffTree : TreeH := { heap := [], next := 0, rootRef := 0, idMap := [], checkpoint := "X" }

/-- C9: the claim states that fetchFresh's relinking step initializes a
parent's children map before writing, as addChild does, so that the write
is always defined.  The source writes pn.Nodes[strings.ToLower(node.Name)]
directly; for nodes decoded from a server response the Nodes map is nil, so
the very first child placement is a nil-map write (a Go runtime panic).
The theorem evaluates the relink at a two-node list, a root folder and one
file under it, both decoded without a children map. -/
theorem fetchFresh_nil_map_write :
    fetchFresh ffTree [ffRoot, ffChild] = .error .nilMapWrite := by decide

/-! ### Claim C10 -/

/-- C10: RemoveNode is atomic on error: when building the request fails,
the transport fails, or the response is classified as an error, the tree is
returned unchanged, so the node is still in the id index and in its
parents' children maps; only on success is the node detached from every
parent found in the index and deleted from the index. -/
theorem RemoveNode_atomic (t : TreeH) (n : SNode) :
    (∀ outcome, outcome ≠ HttpOutcome.success →
      (RemoveNode t n outcome).1 = t ∧ ((RemoveNode t n outcome).2).isSome)
    ∧ aget (RemoveNode t n .success).1.idMap n.id = none
    ∧ (∀ pid ∈ n.parents, ∀ pr, aget t.idMap pid = some pr →
        childEntry (RemoveNode t n .success).1 pr (lowerStr n.name) = none) := by
  refine ⟨?_, ?_, ?_⟩
  · intro outcome h
    cases outcome with
    | buildFail => exact ⟨rfl, rfl⟩
    | doFail => exact ⟨rfl, rfl⟩
    | checkFail => exact ⟨rfl, rfl⟩
    | success => exact absurd rfl h
  · show aget (removeNodeFromTree t n).idMap n.id = none
    unfold removeNodeFromTree
    exact aget_aerase _ _
  · intro pid hpid pr hpr
    show childEntry (removeNodeFromTree t n) pr (lowerStr n.name) = none
    unfold removeNodeFromTree childEntry
    exact removeFromParents_detach t n n.parents pid hpid pr hpr

/-- C10 witness: the atomicity theorem applied to the concrete two-node
tree, the file node, a failing outcome and the success outcome. -/
theorem RemoveNode_atomic_witness :
    ((RemoveNode wTree wFile .doFail).1 = wTree ∧ ((RemoveNode wTree wFile .doFail).2).isSome)
    ∧ aget (RemoveNode wTree wFile .success).1.idMap wFile.id = none
    ∧ childEntry (RemoveNode wTree wFile .success).1 0 (lowerStr wFile.name) = none := by
  obtain ⟨h1, h2, h3⟩ := RemoveNode_atomic wTree wFile
  exact ⟨h1 .doFail (by decide), h2, h3 "root" (by decide) 0 (by decide)⟩

/-! ### Claim C7 -/

/-- C7: an upload whose source reader yields zero bytes returns
NoContentsToUpload, leaves the tree unchanged (no index insert, no child
link), and consults no HTTP content response beyond the failure point: the
result does not depend on the server at all. -/
theorem Upload_zero_bytes (t : TreeH) (parentRef : Ref) (name : String)
    (r : List UInt8) (server1 server2 : MultipartBody → Except Err SNode)
    (h : r.length = 0) :
    Upload t parentRef name r server1 = (t, .error .noContentsToUpload)
    ∧ Upload t parentRef name r server1 = Upload t parentRef name r server2 := by
  have hr : r = [] := List.eq_nil_of_length_eq_zero h
  subst hr
  exact ⟨rfl, rfl⟩

/-- C7 witness: the zero-byte upload theorem at a concrete tree, parent and
two observably different servers. -/
theorem Upload_zero_bytes_witness :
    Upload wTree 0 "new.bin" [] (fun _ => .error .doingHTTPRequest)
      = (wTree, .error .noContentsToUpload)
    ∧ Upload wTree 0 "new.bin" [] (fun _ => .error .doingHTTPRequest)
      = Upload wTree 0 "new.bin" [] (fun _ => .ok wFile) := by
  exact Upload_zero_bytes wTree 0 "new.bin" [] (fun _ => .error .doingHTTPRequest)
    (fun _ => .ok wFile) rfl


theorem FindNode_eq (t : TreeH) (path : String) :
    FindNode t path =
      if trimSlashes (collapseSlashes false path.data) = [] then .ok t.rootRef
      else resolveSegs t t.rootRef
        (splitSlash ((trimSlashes (collapseSlashes false path.data)).map Char.toLower)) := rfl

/-- C5: FindNode is invariant under path normalization; a path normalizing
to zero segments returns the root; a segment missing from the current
node's children returns NodeNotFound. -/
theorem FindNode_normalization_invariant (t : TreeH) (path : String) :
    FindNode t (normalizePath path) = FindNode t path
    ∧ (trimSlashes (collapseSlashes false path.data) = [] → FindNode t path = .ok t.rootRef)
    ∧ (∀ (r : Ref) (seg : List Char) (segs : List (List Char)),
        childEntry t r (String.mk seg) = none →
        resolveSegs t r (seg :: segs) = .error .nodeNotFound) := by
  refine ⟨?_, ?_, ?_⟩
  · rw [FindNode_eq, FindNode_eq]
    have hdata : (normalizePath path).data
        = (trimSlashes (collapseSlashes false path.data)).map Char.toLower := rfl
    rw [hdata, normText_stable]
    by_cases h : trimSlashes (collapseSlashes false path.data) = []
    · simp [h]
    · have h2 : (trimSlashes (collapseSlashes false path.data)).map Char.toLower ≠ [] := by
        simpa using h
      rw [if_neg h, if_neg h2, map_toLower_idem]
  · intro h
    rw [FindNode_eq, if_pos h]
  · intro r seg segs h
    unfold resolveSegs
    rw [h]


/-- C5 witness: the invariance theorem at the tree wTree and the all-slash
path, with a missing segment lookup. -/
theorem FindNode_normalization_invariant_witness :
    FindNode wTree (normalizePath "///") = FindNode wTree "///"
    ∧ FindNode wTree "///" = .ok wTree.rootRef
    ∧ resolveSegs wTree 0 [['z']] = .error .nodeNotFound := by
  obtain ⟨h1, h2, h3⟩ := FindNode_normalization_invariant wTree "///"
  exact ⟨h1, h2 (by decide), h3 0 ['z'] [] (by decide)⟩

/-- C6: nodeProperty.Set enforces the quotas, checking key validity first,
then the key-count limit, then the value size; otherwise it stores the
pair.  String lengths are Go len(), the UTF-8 byte length. -/
theorem nodePropertySet_quotas :
    (∀ (props : List (String × String)) (key value : String),
        propKeyCheck key = true → goLen key ≤ NodePropertyKeyMaxSize →
        (aget props key).isSome = false → props.length = NodePropertyKeysMaxCount →
        nodePropertySet props key value = .error .maxKeys)
    ∧ (∀ (props : List (String × String)) (key value : String),
        propKeyCheck key = false ∨ goLen key > NodePropertyKeyMaxSize →
        nodePropertySet props key value = .error .invalidKey)
    ∧ (∀ (props : List (String × String)) (key value : String),
        propKeyCheck key = true → goLen key ≤ NodePropertyKeyMaxSize →
        ((aget props key).isSome = true ∨ props.length ≠ NodePropertyKeysMaxCount) →
        goLen value > NodePropertyValueMaxSize →
        nodePropertySet props key value = .error .invalidValue)
    ∧ (∀ (props : List (String × String)) (key value : String),
        propKeyCheck key = true → goLen key ≤ NodePropertyKeyMaxSize →
        ((aget props key).isSome = true ∨ props.length ≠ NodePropertyKeysMaxCount) →
        goLen value ≤ NodePropertyValueMaxSize →
        nodePropertySet props key value = .ok (aset props key value)) := by
  refine ⟨?_, ?_, ?_, ?_⟩
  · intro props key value h1 h2 h3 h4
    unfold nodePropertySet
    rw [if_neg (by simp [h1]; omega), if_pos (by simp [h3, h4])]
  · intro props key value h1
    unfold nodePropertySet
    rw [if_pos (by rcases h1 with h | h; exact Or.inl (by simp [h]); exact Or.inr h)]
  · intro props key value h1 h2 h3 h4
    unfold nodePropertySet
    rw [if_neg (by simp [h1]; omega), if_neg (by rcases h3 with h | h; simp [h]; simp [h]),
      if_pos h4]
  · intro props key value h1 h2 h3 h4
    unfold nodePropertySet
    rw [if_neg (by simp [h1]; omega), if_neg (by rcases h3 with h | h; simp [h]; simp [h]),
      if_neg (by omega)]

def props10 : List (String × String) :=
  [("k0", ""), ("k1", ""), ("k2", ""), ("k3", ""), ("k4", ""), ("k5", ""), ("k6", ""),
   ("k7", ""), ("k8", ""), ("k9", "")]

def val501 : String := String.mk (List.replicate 501 'a')

set_option maxRecDepth 8192 in
/-- C6 witness: the quota theorem at a ten-key map: an 11th distinct key, a
hyphenated key, a 501-byte value on an existing key, and a small value. -/
theorem nodePropertySet_quotas_witness :
    nodePropertySet props10 "k10" "" = .error .maxKeys
    ∧ nodePropertySet props10 "k-1" "" = .error .invalidKey
    ∧ nodePropertySet props10 "k0" val501 = .error .invalidValue
    ∧ nodePropertySet props10 "k0" "v" = .ok (aset props10 "k0" "v") := by
  obtain ⟨h1, h2, h3, h4⟩ := nodePropertySet_quotas
  refine ⟨h1 props10 "k10" "" (by decide) (by decide) (by decide) (by decide), ?_, ?_, ?_⟩
  · exact h2 props10 "k-1" "" (Or.inl (by decide))
  · exact h3 props10 "k0" val501 (by decide) (by decide) (Or.inl (by decide)) (by decide)
  · exact h4 props10 "k0" "v" (by decide) (by decide) (Or.inl (by decide)) (by decide)


theorem collapseSlashes_true_all_slash (l : List Char) (h : ∀ c ∈ l, c = '/') :
    collapseSlashes true l = [] := by
  induction l with
  | nil => rfl
  | cons c cs ih =>
    have hc : c = '/' := h c (List.mem_cons_self c cs)
    simp [collapseSlashes, hc]
    exact ih (fun d hd => h d (List.mem_cons_of_mem c hd))

theorem trim_collapse_all_slash (l : List Char) (h : ∀ c ∈ l, c = '/') :
    trimSlashes (collapseSlashes false l) = [] := by
  cases l with
  | nil => rfl
  | cons c cs =>
    have hc : c = '/' := h c (List.mem_cons_self c cs)
    have hred : collapseSlashes false (c :: cs) = '/' :: collapseSlashes true cs := by
      simp [collapseSlashes, hc]
    rw [hred, collapseSlashes_true_all_slash cs (fun d hd => h d (List.mem_cons_of_mem c hd))]
    decide

/-- C8: amended form.  A MkDirAll call whose path normalizes to zero
segments (empty or all slashes) issues no create-folder request and leaves
the tree unchanged; the path resolves to the root via FindNode, so the root
is returned when it is a folder and the call fails with
FileExistsAndIsNotFolder otherwise.  The CannotCreateRootNode branch of the
source is unreachable: strings.Split of the trimmed empty path yields one
empty segment, never zero. -/
theorem MkDirAll_zero_segments (t : TreeH) (server : String → String → Except Err SNode)
    (path : String) (h : ∀ c ∈ path.data, c = '/') :
    MkDirAll t server path =
      ([], t, if (nodeAt t t.rootRef).isDir then Except.ok t.rootRef
              else Except.error Err.fileExistsAndIsNotFolder) := by
  have hfn : FindNode t path = .ok t.rootRef := by
    rw [FindNode_eq, if_pos (trim_collapse_all_slash path.data h)]
  simp only [MkDirAll, hfn]
  by_cases hdir : (nodeAt t t.rootRef).isDir <;> simp [hdir]

def c8Root : SNode :=
  { id := "root", name := "", kind := "FILE", status := "AVAILABLE", isRoot := true,
    parents := [], children := none }

def c8Tree : TreeH :=
  { heap := [(0, c8Root)], next := 1, rootRef := 0, idMap := [("root", 0)], checkpoint := "" }

def c8Server : String → String → Except Err SNode := fun _ _ => .error .creatingHTTPRequest

/-- C8 counterexample: on a tree whose root record is not a folder, the
empty path is in the claim's otherwise-case (it does not resolve to an
existing root folder), yet MkDirAll fails with FileExistsAndIsNotFolder,
not with CannotCreateRootNode as the claim states. -/
theorem MkDirAll_root_counterexample :
    MkDirAll c8Tree c8Server "" = ([], c8Tree, .error .fileExistsAndIsNotFolder)
    ∧ Err.fileExistsAndIsNotFolder ≠ Err.cannotCreateRootNode := by
  constructor
  · rfl
  · decide

/-- C8 witness: the amended theorem at the two-node tree and an all-slash
path. -/
theorem MkDirAll_zero_segments_witness :
    MkDirAll wTree c8Server "///" =
      ([], wTree, if (nodeAt wTree wTree.rootRef).isDir then Except.ok wTree.rootRef
                  else Except.error Err.fileExistsAndIsNotFolder) :=
  MkDirAll_zero_segments wTree c8Server "///" (by decide)


theorem slicesChunk_cons {α : Type} (l : List α) (n : Nat) (hl : l ≠ []) (hn : n ≠ 0) :
    slicesChunk l n = l.take n :: slicesChunk (l.drop n) n := by
  cases l with
  | nil => exact absurd rfl hl
  | cons x xs => rw [slicesChunk, if_neg hn]

theorem slicesChunk_flatten {α : Type} (n : Nat) (hn : n ≠ 0) (l : List α) :
    (slicesChunk l n).flatten = l := by
  induction l, n using slicesChunk.induct with
  | case1 m => simp [slicesChunk]
  | case2 x xs => exact absurd rfl hn
  | case3 x xs m hm ih =>
    rw [slicesChunk_cons (x :: xs) m (by simp) hm, List.flatten_cons, ih hn]
    exact List.take_append_drop m (x :: xs)

theorem slicesChunk_le {α : Type} (n : Nat) (l : List α) :
    ∀ c ∈ slicesChunk l n, c.length ≤ n := by
  induction l, n using slicesChunk.induct with
  | case1 m => simp [slicesChunk]
  | case2 x xs => simp [slicesChunk]
  | case3 x xs m hm ih =>
    intro c hc
    rw [slicesChunk_cons (x :: xs) m (by simp) hm] at hc
    rcases List.mem_cons.mp hc with heq | hmem
    · subst heq
      simp [List.length_take]
    · exact ih c hmem


theorem purgeLoop_all_ok (m : List String → List (String × Nat)) :
    ∀ (chunks issued : List (List String)) (maps : List (List (String × Nat))),
      purgeLoop (fun c => .ok (m c)) chunks issued maps =
        (issued ++ chunks, .ok (maps ++ (chunks.map m).filter (fun x => x.length > 0))) := by
  intro chunks
  induction chunks with
  | nil => intro issued maps; simp [purgeLoop]
  | cons chunk rest ih =>
    intro issued maps
    show purgeLoop (fun c => .ok (m c)) rest (issued ++ [chunk])
        (if (m chunk).length > 0 then maps ++ [m chunk] else maps)
      = (issued ++ chunk :: rest, .ok (maps ++ ((chunk :: rest).map m).filter (fun x => x.length > 0)))
    rw [ih]
    by_cases hlen : (m chunk).length > 0
    · simp [hlen, List.filter]
    · simp [hlen, List.filter, Nat.eq_zero_of_not_pos hlen]

theorem slicesChunk_sizes_123 (ids : List String) (h : ids.length = 123) :
    (slicesChunk ids 50).map List.length = [50, 50, 23] := by
  have h1 : ids ≠ [] := by
    intro he
    rw [he] at h
    simp at h
  have hd1 : (ids.drop 50).length = 73 := by rw [List.length_drop, h]
  have h2 : ids.drop 50 ≠ [] := by
    intro he
    rw [he] at hd1
    simp at hd1
  have hd2 : ((ids.drop 50).drop 50).length = 23 := by rw [List.length_drop, hd1]
  have h3 : (ids.drop 50).drop 50 ≠ [] := by
    intro he
    rw [he] at hd2
    simp at hd2
  have hd3 : (((ids.drop 50).drop 50).drop 50) = [] :=
    List.drop_eq_nil_of_le (by omega)
  rw [slicesChunk_cons ids 50 h1 (by decide),
    slicesChunk_cons (ids.drop 50) 50 h2 (by decide),
    slicesChunk_cons ((ids.drop 50).drop 50) 50 h3 (by decide), hd3]
  simp [slicesChunk, List.length_take, h, hd1, hd2]

/-- C4: PurgeNodes chunks the id list into consecutive batches of at most
50, in input order, issues one bulk-purge request per batch, and aggregates
the non-empty errorMaps of the batch responses into a single error when any
batch reported one; 123 ids produce exactly three batches of sizes 50, 50
and 23. -/
theorem PurgeNodes_batching :
    (∀ (ids : List String) (m : List String → List (String × Nat)),
        PurgeNodes ids (fun c => .ok (m c)) =
          (slicesChunk ids 50,
            if (((slicesChunk ids 50).map m).filter (fun x => x.length > 0)).length > 0 then
              .error (.purgeNodeErrors (((slicesChunk ids 50).map m).filter
                (fun x => x.length > 0)))
            else .ok ()))
    ∧ (∀ ids : List String, (slicesChunk ids 50).flatten = ids)
    ∧ (∀ (ids : List String) (c : List String), c ∈ slicesChunk ids 50 → c.length ≤ 50)
    ∧ (∀ ids : List String, ids.length = 123 →
        (slicesChunk ids 50).map List.length = [50, 50, 23]) := by
  refine ⟨?_, ?_, ?_, ?_⟩
  · intro ids m
    unfold PurgeNodes
    rw [purgeLoop_all_ok m (slicesChunk ids 50) [] []]
    simp
  · intro ids
    exact slicesChunk_flatten 50 (by decide) ids
  · intro ids c hc
    exact slicesChunk_le 50 ids c hc
  · exact slicesChunk_sizes_123

/-- C4 witness: the batching theorem applied to a concrete 123-id list and
a server whose first batch reports errorMap [(id42, 500)]. -/
theorem PurgeNodes_batching_witness :
    (PurgeNodes ((List.range 123).map toString)
        (fun c => .ok (if "42" ∈ c then [("42", 500)] else [])) =
      (slicesChunk ((List.range 123).map toString) 50,
        if ((((slicesChunk ((List.range 123).map toString) 50).map
              (fun c => if "42" ∈ c then [("42", 500)] else [])).filter
              (fun x => x.length > 0))).length > 0 then
          .error (.purgeNodeErrors (((slicesChunk ((List.range 123).map toString) 50).map
              (fun c => if "42" ∈ c then [("42", 500)] else [])).filter
              (fun x => x.length > 0)))
        else .ok ()))
    ∧ (slicesChunk ((List.range 123).map toString) 50).flatten = (List.range 123).map toString
    ∧ (slicesChunk ((List.range 123).map toString) 50).map List.length = [50, 50, 23] := by
  obtain ⟨h1, h2, h3, h4⟩ := PurgeNodes_batching
  refine ⟨h1 ((List.range 123).map toString) (fun c => if "42" ∈ c then [("42", 500)] else []),
    h2 ((List.range 123).map toString), h4 ((List.range 123).map toString) (by simp)⟩


mutual

theorem buildIdx_eq : ∀ (acc : List (String × GNode)) (n : GNode),
    buildIdx acc n = (gwalk n).foldl (fun a m => aset a m.id m) acc
  | acc, .mk i nm k s r p cs => by
    rw [buildIdx, gwalk, List.foldl_cons]
    exact buildIdxF_eq (aset acc i (.mk i nm k s r p cs)) cs

theorem buildIdxF_eq : ∀ (acc : List (String × GNode)) (f : GForest),
    buildIdxF acc f = (gwalkF f).foldl (fun a m => aset a m.id m) acc
  | _, .nil => rfl
  | acc, .cons key c rest => by
    rw [buildIdxF, gwalkF, List.foldl_append]
    rw [← buildIdx_eq acc c]
    exact buildIdxF_eq (buildIdx acc c) rest

end

theorem foldl_aset_not_mem (l : List GNode) (acc : List (String × GNode)) (k : String)
    (h : ∀ m ∈ l, m.id ≠ k) :
    aget (l.foldl (fun a m => aset a m.id m) acc) k = aget acc k := by
  induction l generalizing acc with
  | nil => rfl
  | cons m rest ih =>
    rw [List.foldl_cons, ih (aset acc m.id m) (fun m2 hm2 => h m2 (List.mem_cons_of_mem m hm2))]
    exact aget_aset_ne acc m.id k m (h m (List.mem_cons_self m rest))

theorem foldl_aset_mem (l : List GNode) (acc : List (String × GNode)) (n : GNode)
    (hnodup : (l.map GNode.id).Nodup) (hmem : n ∈ l) :
    aget (l.foldl (fun a m => aset a m.id m) acc) n.id = some n := by
  induction l generalizing acc with
  | nil => simp at hmem
  | cons m rest ih =>
    rcases List.mem_cons.mp hmem with heq | hmem2
    · subst heq
      rw [List.foldl_cons]
      have hrest : ∀ m2 ∈ rest, m2.id ≠ n.id := by
        intro m2 hm2 hid
        have : n.id ∈ rest.map GNode.id := List.mem_map.mpr ⟨m2, hm2, hid⟩
        exact (List.nodup_cons.mp (by simpa using hnodup)).1 this
      rw [foldl_aset_not_mem rest (aset acc n.id n) n.id hrest]
      exact aget_aset acc n.id n
    · rw [List.foldl_cons]
      exact ih (aset acc m.id m) (List.nodup_cons.mp (by simpa using hnodup)).2 hmem2

/-- C3: amended form.  The cache file receives only the gob encoding of the
exported fields (the root subtree, the checkpoint, the timestamp); the
unexported id index is rebuilt on load by walking the root.  Hence the root
subtree round-trips unchanged (so reachability from the root is preserved),
and every node reachable from the root is found again under its id, with
identical id, name, kind, status and parents, provided ids are unique among
the reachable nodes.  Index entries not reachable from the root are
dropped, which is what the counterexample exhibits. -/
theorem cacheRoundTrip_preserves (t : TreeV) (n : GNode)
    (hnodup : ((gwalk t.root).map GNode.id).Nodup) (hmem : n ∈ gwalk t.root) :
    FindById (cacheRoundTrip t).index n.id = .ok n
    ∧ (cacheRoundTrip t).root = t.root
    ∧ (cacheRoundTrip t).checkpoint = t.checkpoint := by
  refine ⟨?_, rfl, rfl⟩
  show FindById (buildIdx [] t.root) n.id = .ok n
  rw [buildIdx_eq]
  unfold FindById
  rw [foldl_aset_mem (gwalk t.root) [] n hnodup hmem]

def vghost : GNode := .mk "ghost" "g" "FOLDER" "AVAILABLE" false [] .nil

def vroot : GNode := .mk "root" "" "FOLDER" "AVAILABLE" true [] .nil

def vtree : TreeV :=
  { root := vroot, index := [("root", vroot), ("ghost", vghost)], checkpoint := "c" }

/-- C3 counterexample: a tree whose index holds an entry (here a placeholder
style node ghost) that is not reachable from the root.  The id resolves
before the round trip and no longer resolves after it, so the claim as
stated — every id present in the original index resolves after the round
trip — is false. -/
theorem cacheRoundTrip_drops_unreachable :
    FindById vtree.index "ghost" = .ok vghost
    ∧ FindById (cacheRoundTrip vtree).index "ghost" = .error .nodeNotFound := by
  constructor
  · rfl
  · decide

def vchild : GNode := .mk "kid" "Kid.txt" "FILE" "AVAILABLE" false ["vr"] .nil

def vroot2 : GNode := .mk "vr" "" "FOLDER" "AVAILABLE" true [] (.cons "kid.txt" vchild .nil)

def vtree2 : TreeV :=
  { root := vroot2, index := [("vr", vroot2), ("kid", vchild)], checkpoint := "cp" }

/-- C3 witness: the round-trip theorem at a two-node tree and its reachable
child. -/
theorem cacheRoundTrip_preserves_witness :
    FindById (cacheRoundTrip vtree2).index vchild.id = .ok vchild
    ∧ (cacheRoundTrip vtree2).root = vtree2.root
    ∧ (cacheRoundTrip vtree2).checkpoint = vtree2.checkpoint :=
  cacheRoundTrip_preserves vtree2 vchild (by decide) (by decide)


theorem aget_aset_cases {κ β : Type} [DecidableEq κ] (l : List (κ × β)) (k k2 : κ) (v w : β)
    (h : aget (aset l k v) k2 = some w) : (k2 = k ∧ w = v) ∨ aget l k2 = some w := by
  by_cases hk : k = k2
  · subst hk
    rw [aget_aset] at h
    exact Or.inl ⟨rfl, (Option.some.injEq ..).mp h.symm⟩
  · rw [aget_aset_ne l k k2 v hk] at h
    exact Or.inr h

theorem addChild_idMap (t : TreeH) (pr : Ref) (c : SNode) (cr : Ref) :
    (addChild t pr c cr).idMap = t.idMap := by
  unfold addChild
  split
  · rfl
  · rfl

theorem addChild_next (t : TreeH) (pr : Ref) (c : SNode) (cr : Ref) :
    (addChild t pr c cr).next = t.next := by
  unfold addChild
  split
  · rfl
  · rfl

theorem addChild_rootRef (t : TreeH) (pr : Ref) (c : SNode) (cr : Ref) :
    (addChild t pr c cr).rootRef = t.rootRef := by
  unfold addChild
  split
  · rfl
  · rfl

theorem addChild_heap_frame (t : TreeH) (pr : Ref) (c : SNode) (cr : Ref) (rr : Ref)
    (h : rr ≠ pr) : aget (addChild t pr c cr).heap rr = aget t.heap rr := by
  cases hp : aget t.heap pr with
  | none => simp only [addChild, hp]
  | some p =>
    simp only [addChild, hp]
    exact aget_aset_ne t.heap pr rr _ (fun he => h he.symm)

theorem addChild_childEntry_self (t : TreeH) (pr : Ref) (c : SNode) (cr : Ref)
    (h : (aget t.heap pr).isSome = true) :
    childEntry (addChild t pr c cr) pr (lowerStr c.name) = some cr := by
  cases hp : aget t.heap pr with
  | none => rw [hp] at h; simp at h
  | some p =>
    unfold addChild childEntry
    simp only [hp]
    rw [aget_aset]
    simp only []
    exact aget_aset (p.children.getD []) (lowerStr c.name) cr

theorem addChild_childEntry_pres_val (t : TreeH) (pr : Ref) (c : SNode) (cr : Ref) (rr : Ref)
    (h : childEntry t rr (lowerStr c.name) = some cr) :
    childEntry (addChild t pr c cr) rr (lowerStr c.name) = some cr := by
  by_cases hr : rr = pr
  · subst hr
    have hs : (aget t.heap rr).isSome = true := by
      unfold childEntry at h
      cases hp : aget t.heap rr with
      | none => rw [hp] at h; simp at h
      | some p => simp [hp]
    exact addChild_childEntry_self t rr c cr hs
  · unfold childEntry
    rw [addChild_heap_frame t pr c cr rr hr]
    exact h

theorem addChild_childEntry_cases (t : TreeH) (pr : Ref) (c : SNode) (cr : Ref) (rr : Ref)
    (k : String) (v : Ref) (h : childEntry (addChild t pr c cr) rr k = some v) :
    v = cr ∨ childEntry t rr k = some v := by
  by_cases hr : rr = pr
  · subst hr
    cases hp : aget t.heap rr with
    | none =>
      unfold addChild at h
      simp only [hp] at h
      exact Or.inr h
    | some p =>
      unfold addChild at h
      simp only [hp] at h
      unfold childEntry at h
      rw [aget_aset] at h
      simp only [] at h
      rcases aget_aset_cases (p.children.getD []) (lowerStr c.name) k cr v h with ⟨hk, hv⟩ | h2
      · exact Or.inl hv
      · cases hc : p.children with
        | none =>
          rw [hc] at h2
          simp [aget] at h2
        | some m =>
          rw [hc] at h2
          refine Or.inr ?_
          unfold childEntry
          simp only [hp, hc]
          simpa using h2
  · unfold childEntry at h ⊢
    rw [addChild_heap_frame t pr c cr rr hr] at h
    exact Or.inr h

theorem addChild_heapNext_pres (t : TreeH) (pr : Ref) (c : SNode) (cr : Ref)
    (h : ∀ rr nd, aget t.heap rr = some nd → rr < t.next) :
    ∀ rr nd, aget (addChild t pr c cr).heap rr = some nd → rr < t.next := by
  intro rr nd hrr
  cases hp : aget t.heap pr with
  | none =>
    unfold addChild at hrr
    simp only [hp] at hrr
    exact h rr nd hrr
  | some p =>
    unfold addChild at hrr
    simp only [hp] at hrr
    rcases aget_aset_cases t.heap pr rr _ nd hrr with ⟨hk, _⟩ | h2
    · subst hk
      exact h rr p hp
    · exact h rr nd h2

theorem addChild_cover_pres (t : TreeH) (pr : Ref) (c : SNode) (cr : Ref) (rr : Ref)
    (h : (aget t.heap rr).isSome = true) :
    (aget (addChild t pr c cr).heap rr).isSome = true := by
  by_cases hr : rr = pr
  · subst hr
    cases hp : aget t.heap rr with
    | none => rw [hp] at h; simp at h
    | some p =>
      unfold addChild
      simp only [hp]
      rw [aget_aset]
      rfl
  · rw [addChild_heap_frame t pr c cr rr hr]
    exact h

theorem addChild_heap_pres_exact (t : TreeH) (pr : Ref) (c : SNode) (cr : Ref) (q : Ref)
    (P : SNode) (m : List (String × Ref)) (hq : aget t.heap q = some P)
    (hm : P.children = some m) (hset : aset m (lowerStr c.name) cr = m) :
    aget (addChild t pr c cr).heap q = some P := by
  by_cases hr : q = pr
  · subst hr
    unfold addChild
    simp only [hq]
    rw [aget_aset]
    congr 1
    rw [hm]
    simp only [Option.getD]
    rw [hset, ← hm]
  · rw [addChild_heap_frame t pr c cr q (by exact hr)]
    exact hq

theorem removeChild_heap_frame (t : TreeH) (pr : Ref) (child : SNode) (rr : Ref)
    (h : rr ≠ pr) : aget (removeChild t pr child).heap rr = aget t.heap rr := by
  cases hp : aget t.heap pr with
  | none => simp only [removeChild, hp]
  | some p =>
    cases hc : p.children with
    | none => simp only [removeChild, hp, hc]
    | some m =>
      simp only [removeChild, hp, hc]
      exact aget_aset_ne t.heap pr rr _ (fun he => h he.symm)

theorem removeChild_heapNext_pres (t : TreeH) (pr : Ref) (child : SNode)
    (h : ∀ rr nd, aget t.heap rr = some nd → rr < t.next) :
    ∀ rr nd, aget (removeChild t pr child).heap rr = some nd → rr < t.next := by
  intro rr nd hrr
  cases hp : aget t.heap pr with
  | none =>
    unfold removeChild at hrr
    simp only [hp] at hrr
    exact h rr nd hrr
  | some p =>
    cases hc : p.children with
    | none =>
      unfold removeChild at hrr
      simp only [hp, hc] at hrr
      exact h rr nd hrr
    | some m =>
      unfold removeChild at hrr
      simp only [hp, hc] at hrr
      rcases aget_aset_cases t.heap pr rr _ nd hrr with ⟨hk, _⟩ | h2
      · subst hk
        exact h rr p hp
      · exact h rr nd h2

theorem removeChild_cover_pres (t : TreeH) (pr : Ref) (child : SNode) (rr : Ref)
    (h : (aget t.heap rr).isSome = true) :
    (aget (removeChild t pr child).heap rr).isSome = true := by
  by_cases hr : rr = pr
  · subst hr
    cases hp : aget t.heap rr with
    | none => rw [hp] at h; simp at h
    | some p =>
      cases hc : p.children with
      | none =>
        unfold removeChild
        simp only [hp, hc]
        rfl
      | some m =>
        unfold removeChild
        simp only [hp, hc]
        rw [aget_aset]
        rfl
  · rw [removeChild_heap_frame t pr child rr hr]
    exact h

theorem removeFromParents_heap_frame (t : TreeH) (child : SNode) (ps : List String) (rx : Ref)
    (h : ∀ pid ∈ ps, aget t.idMap pid ≠ some rx) :
    aget (removeFromParents t child ps).heap rx = aget t.heap rx := by
  induction ps generalizing t with
  | nil => rfl
  | cons pid1 rest ih =>
    unfold removeFromParents
    cases hp : aget t.idMap pid1 with
    | none => exact ih t (fun pid hpid => h pid (List.mem_cons_of_mem pid1 hpid))
    | some pr =>
      have hne : rx ≠ pr := by
        intro he
        exact h pid1 (List.mem_cons_self pid1 rest) (by rw [hp, he])
      rw [ih (removeChild t pr child) ?_, removeChild_heap_frame t pr child rx hne]
      intro pid hpid
      rw [removeChild_idMap]
      exact h pid (List.mem_cons_of_mem pid1 hpid)

theorem removeFromParents_heapNext_pres (t : TreeH) (child : SNode) (ps : List String)
    (h : ∀ rr nd, aget t.heap rr = some nd → rr < t.next) :
    ∀ rr nd, aget (removeFromParents t child ps).heap rr = some nd → rr < t.next := by
  induction ps generalizing t with
  | nil => exact h
  | cons pid1 rest ih =>
    unfold removeFromParents
    cases hp : aget t.idMap pid1 with
    | none => exact ih t h
    | some pr =>
      intro rr nd hrr
      have hnext : (removeChild t pr child).next = t.next := removeChild_next t pr child
      have h2 := ih (removeChild t pr child) ?_ rr nd hrr
      · rw [hnext] at h2
        exact h2
      · rw [hnext]
        exact removeChild_heapNext_pres t pr child h

theorem removeFromParents_cover_pres (t : TreeH) (child : SNode) (ps : List String) (rr : Ref)
    (h : (aget t.heap rr).isSome = true) :
    (aget (removeFromParents t child ps).heap rr).isSome = true := by
  induction ps generalizing t with
  | nil => exact h
  | cons pid1 rest ih =>
    unfold removeFromParents
    cases hp : aget t.idMap pid1 with
    | none => exact ih t h
    | some pr => exact ih (removeChild t pr child) (removeChild_cover_pres t pr child rr h)


/-! ### Well-formedness of a tree state: every reference in the id index and
the heap is below the fresh-reference counter, and every indexed reference
has a heap record. -/

def NextBoundP (t : TreeH) : Prop :=
  ∀ id rr, aget t.idMap id = some rr → rr < t.next

def HeapNextP (t : TreeH) : Prop :=
  ∀ rr nd, aget t.heap rr = some nd → rr < t.next

def CoverP (t : TreeH) : Prop :=
  ∀ id rr, aget t.idMap id = some rr → (aget t.heap rr).isSome = true

theorem aget_mem {κ β : Type} [DecidableEq κ] (l : List (κ × β)) (k : κ) (v : β)
    (h : aget l k = some v) : (k, v) ∈ l := by
  induction l with
  | nil => simp [aget] at h
  | cons p rest ih =>
    obtain ⟨k1, v1⟩ := p
    by_cases hk : k1 = k
    · subst hk
      rw [aget, if_pos rfl] at h
      obtain rfl : v1 = v := by simpa using h
      exact List.mem_cons_self _ _
    · rw [aget, if_neg hk] at h
      exact List.mem_cons_of_mem _ (ih h)

theorem nextBoundP_of_entries (t : TreeH) (h : ∀ p ∈ t.idMap, p.2 < t.next) : NextBoundP t :=
  fun id rr hget => h (id, rr) (aget_mem t.idMap id rr hget)

theorem heapNextP_of_entries (t : TreeH) (h : ∀ p ∈ t.heap, p.1 < t.next) : HeapNextP t :=
  fun rr nd hget => h (rr, nd) (aget_mem t.heap rr nd hget)

theorem coverP_of_entries (t : TreeH)
    (h : ∀ p ∈ t.idMap, (aget t.heap p.2).isSome = true) : CoverP t :=
  fun id rr hget => h (id, rr) (aget_mem t.idMap id rr hget)

/-! ### phStep and addChild preserve well-formedness -/

theorem phStep_heap_at_next (t : TreeH) (pid : String) :
    aget (phStep t pid).heap t.next = some (placeholderNode pid) :=
  aget_aset t.heap t.next (placeholderNode pid)

theorem phStep_heap_frame (t : TreeH) (pid : String) (rr : Ref) (h : rr ≠ t.next) :
    aget (phStep t pid).heap rr = aget t.heap rr :=
  aget_aset_ne t.heap t.next rr (placeholderNode pid) (fun he => h he.symm)

theorem phStep_heapNextP (t : TreeH) (pid : String) (h : HeapNextP t) :
    HeapNextP (phStep t pid) := by
  intro rr nd hrr
  show rr < t.next + 1
  rcases aget_aset_cases t.heap t.next rr (placeholderNode pid) nd hrr with ⟨hk, _⟩ | h2
  · exact hk ▸ Nat.lt_succ_self t.next
  · exact Nat.lt_succ_of_lt (h rr nd h2)

theorem phStep_nextBoundP (t : TreeH) (pid : String) (h : NextBoundP t) :
    NextBoundP (phStep t pid) := by
  intro id rr hrr
  show rr < t.next + 1
  rcases aget_aset_cases t.idMap pid id t.next rr hrr with ⟨_, hv⟩ | h2
  · exact hv ▸ Nat.lt_succ_self t.next
  · exact Nat.lt_succ_of_lt (h id rr h2)

theorem addChild_heapNextP (t : TreeH) (pr : Ref) (c : SNode) (cr : Ref) (h : HeapNextP t) :
    HeapNextP (addChild t pr c cr) := by
  intro rr nd hrr
  rw [addChild_next]
  exact addChild_heapNext_pres t pr c cr h rr nd hrr

theorem addChild_nextBoundP (t : TreeH) (pr : Ref) (c : SNode) (cr : Ref) (h : NextBoundP t) :
    NextBoundP (addChild t pr c cr) := by
  intro id rr hrr
  rw [addChild_idMap] at hrr
  rw [addChild_next]
  exact h id rr hrr

theorem addChild_coverP (t : TreeH) (pr : Ref) (c : SNode) (cr : Ref) (h : CoverP t) :
    CoverP (addChild t pr c cr) := by
  intro id rr hrr
  rw [addChild_idMap] at hrr
  exact addChild_cover_pres t pr c cr rr (h id rr hrr)

theorem phStep_coverP (t : TreeH) (pid : String) (hNB : NextBoundP t) (h : CoverP t) :
    CoverP (phStep t pid) := by
  intro id rr hrr
  show (aget (phStep t pid).heap rr).isSome = true
  rcases aget_aset_cases t.idMap pid id t.next rr hrr with ⟨_, hv⟩ | h2
  · subst hv
    rw [phStep_heap_at_next]
    rfl
  · have hlt := hNB id rr h2
    rw [phStep_heap_frame t pid rr (Nat.ne_of_lt hlt)]
    exact h id rr h2


theorem addToParents_idMap_pres (c : SNode) (cr : Ref) (ps : List String) :
    ∀ (t : TreeH) (id : String) (rr : Ref), aget t.idMap id = some rr →
      aget (addToParents t c cr ps).idMap id = some rr := by
  induction ps with
  | nil => intro t id rr h; exact h
  | cons pid1 rest ih =>
    intro t id rr h
    unfold addToParents
    cases hp : aget t.idMap pid1 with
    | some pr =>
      refine ih (addChild t pr c cr) id rr ?_
      rw [addChild_idMap]
      exact h
    | none =>
      refine ih (addChild (phStep t pid1) t.next c cr) id rr ?_
      rw [addChild_idMap]
      show aget (aset t.idMap pid1 t.next) id = some rr
      have hne : pid1 ≠ id := by
        intro he
        rw [he, h] at hp
        exact Option.noConfusion hp
      rw [aget_aset_ne t.idMap pid1 id t.next hne]
      exact h

theorem addToParents_heap_frame (c : SNode) (cr : Ref) (ps : List String) :
    ∀ (t : TreeH) (rx : Ref), rx < t.next →
      (∀ pid ∈ ps, aget t.idMap pid ≠ some rx) →
      aget (addToParents t c cr ps).heap rx = aget t.heap rx := by
  induction ps with
  | nil => intro t rx _ _; rfl
  | cons pid1 rest ih =>
    intro t rx hlt hps
    unfold addToParents
    cases hp : aget t.idMap pid1 with
    | some pr =>
      have hpr : pr ≠ rx := by
        intro he
        exact hps pid1 (List.mem_cons_self pid1 rest) (by rw [hp, he])
      have h1 := ih (addChild t pr c cr) rx (by rw [addChild_next]; exact hlt) ?_
      · rw [h1, addChild_heap_frame t pr c cr rx (fun he => hpr he.symm)]
      · intro pid hpid
        rw [addChild_idMap]
        exact hps pid (List.mem_cons_of_mem pid1 hpid)
    | none =>
      have hnext : (addChild (phStep t pid1) t.next c cr).next = t.next + 1 := by
        rw [addChild_next]
        rfl
      have h1 := ih (addChild (phStep t pid1) t.next c cr) rx
        (by rw [hnext]; exact Nat.lt_succ_of_lt hlt) ?_
      · rw [h1]
        have h2 : aget (addChild (phStep t pid1) t.next c cr).heap rx
            = aget (phStep t pid1).heap rx :=
          addChild_heap_frame (phStep t pid1) t.next c cr rx (Nat.ne_of_lt hlt)
        rw [h2, phStep_heap_frame t pid1 rx (Nat.ne_of_lt hlt)]
      · intro pid hpid
        rw [addChild_idMap]
        show aget (aset t.idMap pid1 t.next) pid ≠ some rx
        by_cases he : pid1 = pid
        · subst he
          rw [aget_aset]
          intro hcon
          have : t.next = rx := by simpa using hcon
          exact absurd this (Nat.ne_of_gt hlt)
        · rw [aget_aset_ne t.idMap pid1 pid t.next he]
          exact hps pid (List.mem_cons_of_mem pid1 hpid)

theorem addToParents_childEntry_pres (c : SNode) (cr : Ref) (ps : List String) :
    ∀ (t : TreeH) (rr : Ref), HeapNextP t →
      childEntry t rr (lowerStr c.name) = some cr →
      childEntry (addToParents t c cr ps) rr (lowerStr c.name) = some cr := by
  induction ps with
  | nil => intro t rr _ h; exact h
  | cons pid1 rest ih =>
    intro t rr hHN h
    unfold addToParents
    cases hp : aget t.idMap pid1 with
    | some pr =>
      exact ih (addChild t pr c cr) rr (addChild_heapNextP t pr c cr hHN)
        (addChild_childEntry_pres_val t pr c cr rr h)
    | none =>
      have hrlt : rr < t.next := by
        unfold childEntry at h
        cases hh : aget t.heap rr with
        | none => rw [hh] at h; exact absurd h (by simp)
        | some nd => exact hHN rr nd hh
      have h2 : childEntry (phStep t pid1) rr (lowerStr c.name) = some cr := by
        unfold childEntry at h ⊢
        rw [phStep_heap_frame t pid1 rr (Nat.ne_of_lt hrlt)]
        exact h
      exact ih (addChild (phStep t pid1) t.next c cr) rr
        (addChild_heapNextP (phStep t pid1) t.next c cr (phStep_heapNextP t pid1 hHN))
        (addChild_childEntry_pres_val (phStep t pid1) t.next c cr rr h2)

theorem addToParents_childEntry_cases (c : SNode) (cr : Ref) (ps : List String) :
    ∀ (t : TreeH) (rr : Ref) (k : String) (v : Ref), HeapNextP t →
      childEntry (addToParents t c cr ps) rr k = some v →
      v = cr ∨ childEntry t rr k = some v := by
  induction ps with
  | nil => intro t rr k v _ h; exact Or.inr h
  | cons pid1 rest ih =>
    intro t rr k v hHN h
    unfold addToParents at h
    cases hp : aget t.idMap pid1 with
    | some pr =>
      rw [hp] at h
      rcases ih (addChild t pr c cr) rr k v (addChild_heapNextP t pr c cr hHN) h with
        h1 | h1
      · exact Or.inl h1
      · exact addChild_childEntry_cases t pr c cr rr k v h1
    | none =>
      rw [hp] at h
      rcases ih (addChild (phStep t pid1) t.next c cr) rr k v
        (addChild_heapNextP (phStep t pid1) t.next c cr (phStep_heapNextP t pid1 hHN)) h with
        h1 | h1
      · exact Or.inl h1
      · rcases addChild_childEntry_cases (phStep t pid1) t.next c cr rr k v h1 with h2 | h2
        · exact Or.inl h2
        · by_cases hrq : rr = t.next
          · subst hrq
            unfold childEntry at h2
            rw [phStep_heap_at_next] at h2
            simp [placeholderNode] at h2
          · refine Or.inr ?_
            unfold childEntry at h2 ⊢
            rw [phStep_heap_frame t pid1 rr hrq] at h2
            exact h2


theorem addToParents_heap_pres_exact (c : SNode) (cr : Ref) (ps : List String) :
    ∀ (t : TreeH) (q : Ref) (P : SNode) (m : List (String × Ref)), HeapNextP t →
      aget t.heap q = some P → P.children = some m →
      aset m (lowerStr c.name) cr = m →
      aget (addToParents t c cr ps).heap q = some P := by
  induction ps with
  | nil => intro t q P m _ hq _ _; exact hq
  | cons pid1 rest ih =>
    intro t q P m hHN hq hm hset
    unfold addToParents
    cases hp : aget t.idMap pid1 with
    | some pr =>
      exact ih (addChild t pr c cr) q P m (addChild_heapNextP t pr c cr hHN)
        (addChild_heap_pres_exact t pr c cr q P m hq hm hset) hm hset
    | none =>
      have hqlt : q < t.next := hHN q P hq
      have hq2 : aget (phStep t pid1).heap q = some P := by
        rw [phStep_heap_frame t pid1 q (Nat.ne_of_lt hqlt)]
        exact hq
      exact ih (addChild (phStep t pid1) t.next c cr) q P m
        (addChild_heapNextP (phStep t pid1) t.next c cr (phStep_heapNextP t pid1 hHN))
        (addChild_heap_pres_exact (phStep t pid1) t.next c cr q P m hq2 hm hset) hm hset

theorem addToParents_establishes (c : SNode) (cr : Ref) (ps : List String) :
    ∀ (t : TreeH), NextBoundP t → CoverP t → HeapNextP t →
      ∀ pid ∈ ps, ∃ pr, aget (addToParents t c cr ps).idMap pid = some pr
        ∧ childEntry (addToParents t c cr ps) pr (lowerStr c.name) = some cr := by
  induction ps with
  | nil => intro t _ _ _ pid hpid; simp at hpid
  | cons pid1 rest ih =>
    intro t hNB hC hHN pid hpid
    unfold addToParents
    rcases List.mem_cons.mp hpid with heq | hmem
    · subst heq
      cases hp : aget t.idMap pid with
      | some pr =>
        refine ⟨pr, ?_, ?_⟩
        · refine addToParents_idMap_pres c cr rest (addChild t pr c cr) pid pr ?_
          rw [addChild_idMap]
          exact hp
        · refine addToParents_childEntry_pres c cr rest (addChild t pr c cr) pr
            (addChild_heapNextP t pr c cr hHN) ?_
          exact addChild_childEntry_self t pr c cr (hC pid pr hp)
      | none =>
        refine ⟨t.next, ?_, ?_⟩
        · refine addToParents_idMap_pres c cr rest (addChild (phStep t pid) t.next c cr)
            pid t.next ?_
          rw [addChild_idMap]
          exact aget_aset t.idMap pid t.next
        · refine addToParents_childEntry_pres c cr rest (addChild (phStep t pid) t.next c cr)
            t.next
            (addChild_heapNextP (phStep t pid) t.next c cr (phStep_heapNextP t pid hHN)) ?_
          refine addChild_childEntry_self (phStep t pid) t.next c cr ?_
          rw [phStep_heap_at_next]
          rfl
    · cases hp : aget t.idMap pid1 with
      | some pr =>
        exact ih (addChild t pr c cr) (addChild_nextBoundP t pr c cr hNB)
          (addChild_coverP t pr c cr hC) (addChild_heapNextP t pr c cr hHN) pid hmem
      | none =>
        exact ih (addChild (phStep t pid1) t.next c cr)
          (addChild_nextBoundP (phStep t pid1) t.next c cr (phStep_nextBoundP t pid1 hNB))
          (addChild_coverP (phStep t pid1) t.next c cr (phStep_coverP t pid1 hNB hC))
          (addChild_heapNextP (phStep t pid1) t.next c cr (phStep_heapNextP t pid1 hHN))
          pid hmem

theorem addToParents_placeholder (c : SNode) (cr : Ref) (ps : List String) :
    ∀ (t : TreeH), NextBoundP t → CoverP t → HeapNextP t →
      ∀ pid ∈ ps, aget t.idMap pid = none →
      ∃ q, aget (addToParents t c cr ps).idMap pid = some q
        ∧ aget (addToParents t c cr ps).heap q = some
            { id := pid, name := "", kind := "", status := "", isRoot := false, parents := [],
              children := some [(lowerStr c.name, cr)] } := by
  induction ps with
  | nil => intro t _ _ _ pid hpid; simp at hpid
  | cons pid1 rest ih =>
    intro t hNB hC hHN pid hpid hnone
    unfold addToParents
    by_cases heq : pid = pid1
    · subst heq
      rw [hnone]
      refine ⟨t.next, ?_, ?_⟩
      · refine addToParents_idMap_pres c cr rest (addChild (phStep t pid) t.next c cr)
          pid t.next ?_
        rw [addChild_idMap]
        exact aget_aset t.idMap pid t.next
      · have hfull : aget (addChild (phStep t pid) t.next c cr).heap t.next = some
            { id := pid, name := "", kind := "", status := "", isRoot := false, parents := [],
              children := some [(lowerStr c.name, cr)] } := by
          unfold addChild
          rw [phStep_heap_at_next]
          simp only []
          rw [aget_aset]
          rfl
        refine addToParents_heap_pres_exact c cr rest (addChild (phStep t pid) t.next c cr)
          t.next _ [(lowerStr c.name, cr)]
          (addChild_heapNextP (phStep t pid) t.next c cr (phStep_heapNextP t pid hHN))
          hfull rfl ?_
        simp [aset]
    · have hmem : pid ∈ rest := by
        rcases List.mem_cons.mp hpid with h1 | h1
        · exact absurd h1 heq
        · exact h1
      cases hp : aget t.idMap pid1 with
      | some pr =>
        refine ih (addChild t pr c cr) (addChild_nextBoundP t pr c cr hNB)
          (addChild_coverP t pr c cr hC) (addChild_heapNextP t pr c cr hHN) pid hmem ?_
        rw [addChild_idMap]
        exact hnone
      | none =>
        refine ih (addChild (phStep t pid1) t.next c cr)
          (addChild_nextBoundP (phStep t pid1) t.next c cr (phStep_nextBoundP t pid1 hNB))
          (addChild_coverP (phStep t pid1) t.next c cr (phStep_coverP t pid1 hNB hC))
          (addChild_heapNextP (phStep t pid1) t.next c cr (phStep_heapNextP t pid1 hHN))
          pid hmem ?_
        rw [addChild_idMap]
        show aget (aset t.idMap pid1 t.next) pid = none
        rw [aget_aset_ne t.idMap pid1 pid t.next (fun he => heq he.symm)]
        exact hnone


theorem updateNode_existing_eq (t : TreeH) (c : SNode) (oldRef : Ref) (old : SNode)
    (h1 : c.isRoot = false) (h2 : c.status = "AVAILABLE")
    (h3 : aget t.idMap c.id = some oldRef) (h4 : aget t.heap oldRef = some old) :
    updateNode t c = addToParents
      (removeFromParents
        { t with
          heap := aset t.heap t.next { c with children := old.children },
          next := t.next + 1,
          idMap := aset t.idMap c.id t.next }
        old old.parents)
      { c with children := old.children } t.next c.parents := by
  unfold updateNode
  rw [if_neg (by simp [h1])]
  rw [if_neg (by simp [SNode.isAvailable, h2])]
  simp only [h3, h4, allocNode, Option.getD_some]

/-- C2: folding a sync delta node that is not the root, is AVAILABLE, and
whose id already exists in the index: the index maps the id to the freshly
allocated record carrying the previous record's children map forward; the
old record is detached from each of its old parents (no old parent's
children entry for the old lowercased name references it any more); the new
record is keyed by its lowercased name in the children of every id listed
in its parents; and a placeholder holding only the parent id is inserted
into the index for any parent id not yet present.  The hypotheses are the
natural well-formedness of the tree state (references below the allocation
counter, indexed references backed by heap records) and hygiene of the
delta (the node is not its own parent). -/
theorem updateNode_existing_available_delta (t : TreeH) (c : SNode) (oldRef : Ref) (old : SNode)
    (h1 : c.isRoot = false) (h2 : c.status = "AVAILABLE")
    (h3 : aget t.idMap c.id = some oldRef) (h4 : aget t.heap oldRef = some old)
    (h5 : c.id ∉ c.parents) (h6 : c.id ∉ old.parents)
    (hNB : ∀ p ∈ t.idMap, p.2 < t.next)
    (hHN : ∀ p ∈ t.heap, p.1 < t.next)
    (hCV : ∀ p ∈ t.idMap, (aget t.heap p.2).isSome = true) :
    (aget (updateNode t c).idMap c.id = some t.next
      ∧ aget (updateNode t c).heap t.next = some { c with children := old.children })
    ∧ (∀ pid ∈ old.parents, ∀ pr, aget t.idMap pid = some pr →
        childEntry (updateNode t c) pr (lowerStr old.name) ≠ some oldRef)
    ∧ (∀ pid ∈ c.parents, ∃ pr, aget (updateNode t c).idMap pid = some pr
        ∧ childEntry (updateNode t c) pr (lowerStr c.name) = some t.next)
    ∧ (∀ pid ∈ c.parents, aget t.idMap pid = none →
        ∃ q, aget (updateNode t c).idMap pid = some q
          ∧ aget (updateNode t c).heap q = some
              { id := pid, name := "", kind := "", status := "", isRoot := false,
                parents := [], children := some [(lowerStr c.name, t.next)] }) := by
  have hNBt := nextBoundP_of_entries t hNB
  have hHNt := heapNextP_of_entries t hHN
  have hCVt := coverP_of_entries t hCV
  rw [updateNode_existing_eq t c oldRef old h1 h2 h3 h4]
  have holdlt : oldRef < t.next := hNBt c.id oldRef h3
  set c2 : SNode := { c with children := old.children } with hc2
  set tB : TreeH :=
    { t with
      heap := aset t.heap t.next c2,
      next := t.next + 1,
      idMap := aset t.idMap c.id t.next } with htB
  set t3 : TreeH := removeFromParents tB old old.parents with ht3
  have htBidMap : tB.idMap = aset t.idMap c.id t.next := rfl
  have htBnext : tB.next = t.next + 1 := rfl
  have ht3idMap : t3.idMap = tB.idMap := removeFromParents_idMap tB old old.parents
  have ht3next : t3.next = t.next + 1 := by
    rw [ht3, removeFromParents_next, htBnext]
  have hNB_B : NextBoundP tB := by
    intro id rr h
    rw [htBidMap] at h
    rw [htBnext]
    rcases aget_aset_cases t.idMap c.id id t.next rr h with ⟨_, hv⟩ | hh
    · exact hv ▸ Nat.lt_succ_self t.next
    · exact Nat.lt_succ_of_lt (hNBt id rr hh)
  have hHN_B : HeapNextP tB := by
    intro rr nd h
    rw [htBnext]
    rcases aget_aset_cases t.heap t.next rr c2 nd h with ⟨hk, _⟩ | hh
    · exact hk ▸ Nat.lt_succ_self t.next
    · exact Nat.lt_succ_of_lt (hHNt rr nd hh)
  have hCV_B : CoverP tB := by
    intro id rr h
    rw [htBidMap] at h
    rcases aget_aset_cases t.idMap c.id id t.next rr h with ⟨_, hv⟩ | hh
    · subst hv
      show (aget (aset t.heap t.next c2) t.next).isSome = true
      rw [aget_aset]
      rfl
    · have hlt := hNBt id rr hh
      show (aget (aset t.heap t.next c2) rr).isSome = true
      rw [aget_aset_ne t.heap t.next rr c2 (Nat.ne_of_gt hlt)]
      exact hCVt id rr hh
  have hNB_3 : NextBoundP t3 := by
    intro id rr h
    rw [ht3idMap] at h
    rw [ht3next, ← htBnext]
    exact hNB_B id rr h
  have hHN_3 : HeapNextP t3 := by
    intro rr nd h
    rw [ht3next, ← htBnext]
    exact removeFromParents_heapNext_pres tB old old.parents hHN_B rr nd h
  have hCV_3 : CoverP t3 := by
    intro id rr h
    rw [ht3idMap] at h
    exact removeFromParents_cover_pres tB old old.parents rr (hCV_B id rr h)
  have hcid3 : aget t3.idMap c.id = some t.next := by
    rw [ht3idMap, htBidMap]
    exact aget_aset t.idMap c.id t.next
  have hBframe : ∀ pid ∈ old.parents, aget tB.idMap pid ≠ some t.next := by
    intro pid hpid hcon
    rw [htBidMap] at hcon
    have hne : c.id ≠ pid := fun he => h6 (he ▸ hpid)
    rw [aget_aset_ne t.idMap c.id pid t.next hne] at hcon
    exact absurd (hNBt pid t.next hcon) (Nat.lt_irrefl t.next)
  have hheap3 : aget t3.heap t.next = some c2 := by
    rw [ht3, removeFromParents_heap_frame tB old old.parents t.next hBframe]
    show aget (aset t.heap t.next c2) t.next = some c2
    exact aget_aset t.heap t.next c2
  refine ⟨⟨?_, ?_⟩, ?_, ?_, ?_⟩
  · exact addToParents_idMap_pres c2 t.next c.parents t3 c.id t.next hcid3
  · have h3frame : ∀ pid ∈ c.parents, aget t3.idMap pid ≠ some t.next := by
      intro pid hpid hcon
      rw [ht3idMap, htBidMap] at hcon
      have hne : c.id ≠ pid := fun he => h5 (he ▸ hpid)
      rw [aget_aset_ne t.idMap c.id pid t.next hne] at hcon
      exact absurd (hNBt pid t.next hcon) (Nat.lt_irrefl t.next)
    rw [addToParents_heap_frame c2 t.next c.parents t3 t.next
      (ht3next ▸ Nat.lt_succ_self t.next) h3frame]
    exact hheap3
  · intro pid hpid pr hpr hcon
    rcases addToParents_childEntry_cases c2 t.next c.parents t3 pr (lowerStr old.name) oldRef
      hHN_3 hcon with hv | hch
    · exact absurd hv (Nat.ne_of_lt holdlt)
    · have hbind : aget tB.idMap pid = some pr := by
        rw [htBidMap]
        have hne : c.id ≠ pid := fun he => h6 (he ▸ hpid)
        rw [aget_aset_ne t.idMap c.id pid t.next hne]
        exact hpr
      have hdetach := removeFromParents_detach tB old old.parents pid hpid pr hbind
      rw [← ht3] at hdetach
      rw [hdetach] at hch
      exact Option.noConfusion hch
  · intro pid hpid
    exact addToParents_establishes c2 t.next c.parents t3 hNB_3 hCV_3 hHN_3 pid hpid
  · intro pid hpid hnone
    refine addToParents_placeholder c2 t.next c.parents t3 hNB_3 hCV_3 hHN_3 pid hpid ?_
    rw [ht3idMap, htBidMap]
    have hne : c.id ≠ pid := fun he => h5 (he ▸ hpid)
    rw [aget_aset_ne t.idMap c.id pid t.next hne]
    exact hnone

def wDelta : SNode :=
  { id := "file1", name := "G.txt", kind := "FILE", status := "AVAILABLE", isRoot := false,
    parents := ["root", "newparent"], children := none }

/-- C2 witness: the delta theorem at the concrete two-node tree, an updated
record for the existing file, an existing parent and a missing parent. -/
theorem updateNode_existing_available_delta_witness :
    (aget (updateNode wTree wDelta).idMap wDelta.id = some wTree.next
      ∧ aget (updateNode wTree wDelta).heap wTree.next
          = some { wDelta with children := wFile.children })
    ∧ childEntry (updateNode wTree wDelta) 0 (lowerStr wFile.name) ≠ some 1
    ∧ (∃ pr, aget (updateNode wTree wDelta).idMap "root" = some pr
        ∧ childEntry (updateNode wTree wDelta) pr (lowerStr wDelta.name) = some wTree.next)
    ∧ (∃ q, aget (updateNode wTree wDelta).idMap "newparent" = some q
        ∧ aget (updateNode wTree wDelta).heap q = some
            { id := "newparent", name := "", kind := "", status := "", isRoot := false,
              parents := [], children := some [(lowerStr wDelta.name, wTree.next)] }) := by
  obtain ⟨hA, hB, hC, hD⟩ := updateNode_existing_available_delta wTree wDelta 1 wFile
    (by decide) (by decide) (by decide) (by decide) (by decide) (by decide)
    (by decide) (by decide) (by decide)
  exact ⟨hA, hB "root" (by decide) 0 (by decide), hC "root" (by decide),
    hD "newparent" (by decide) (by decide)⟩

end AcdGo
